import Mathlib

/-!
# Verification of the paws core engine against its specification

This file shallowly embeds the parts of the `paws` repository that the
frozen claims are about:

* `paws/core/models/DictTree.py` — the URI-addressed tree store
  (`get_from_uri`, `set_uri`, `delete_uri`, URI/tag validity, the flat
  URI registry `_all_uris`);
* `paws/core/workflow/Workflow.py` — the dependency resolver
  (`execution_stack`, `is_op_ready`, `get_valid_wf_inputs`) and the
  execution driver (`execute`);
* `paws/core/workflow/wf_manager.py` — `WfManager.add_wf` and
  `WfManager.auto_name`;
* `paws/api/__init__.py` — the version check of `PawsAPI.load_from_wfl`.

Python strings are modelled as `List Char` (`Str`): all the string
manipulation the source performs (`split('.')`, `in` as substring test,
concatenation, `rfind`) becomes explicit list manipulation.  Python's
ordered dictionaries are modelled as ordered association lists, Python
lists as Lean lists, and other stored objects as opaque leaves.  Object
identity and aliasing of mutable values are not modelled: the store is a
value tree, matching stores whose values are not shared between paths.
Exceptions are modelled with `Except String`; the message text matters
only up to which exception is raised.
-/

namespace Paws

/-- Python strings, modelled as their character lists. -/
abbrev Str := List Char

/-- `str s` is the model of the Python string literal `s`. -/
def str (s : String) : Str := s.toList

/-- ASCII codes of `string.punctuation`
(`!"#$%&'()*+,-./:;<=>?@[\]^_`{|}~`): the four ASCII punctuation
blocks. -/
def punctuation_chars : List Char :=
  ((List.range 128).filter (fun n =>
    (33 ≤ n ∧ n ≤ 47) ∨ (58 ≤ n ∧ n ≤ 64) ∨ (91 ≤ n ∧ n ≤ 96) ∨ (123 ≤ n ∧ n ≤ 126))).map
    Char.ofNat

/-- `DictTree.bad_chars`: `string.punctuation` with `_`, `-` and `.`
removed (`DictTree.__init__`, lines 25-28). -/
def bad_chars : List Char :=
  punctuation_chars.filter (fun c => ¬(c = '_' ∨ c = '-' ∨ c = '.'))

/-- `DictTree.space_chars = [' ','\t','\n',os.linesep]` (line 29);
on the POSIX host `os.linesep` is `'\n'`, a duplicate. -/
def space_chars : List Char := [' ', '\t', '\n', '\n']

/-- `DictTree.is_uri_valid` (lines 129-141): a uri is valid iff it is
nonempty and contains no whitespace character and no bad character. -/
def is_uri_valid (uri : Str) : Bool :=
  ¬(uri.isEmpty ∨ space_chars.any (fun c => uri.contains c)
      ∨ bad_chars.any (fun c => uri.contains c))

/-- `DictTree.is_tag_valid` (lines 143-154): valid tags are valid uris
that contain no period. -/
def is_tag_valid (tag : Str) : Bool :=
  if tag.isEmpty then false
  else if tag.contains '.' then false
  else is_uri_valid tag

/-- Python's `uri.split('.')`: split on every `'.'`, keeping empty
pieces; `''.split('.') == ['']`. -/
def splitDots : Str → List Str
  | [] => [[]]
  | c :: rest =>
    match splitDots rest with
    | s :: ss => if c = '.' then [] :: s :: ss else (c :: s) :: ss
    | [] => [[]]

/-- Joining with `'.'`: the inverse of `splitDots`. -/
def joinDots : List Str → Str
  | [] => []
  | [s] => s
  | s :: rest => s ++ '.' :: joinDots rest

/-- Python's `sub in hay` on strings: substring containment. -/
def pyIn (sub hay : Str) : Bool :=
  hay.tails.any (fun t => sub.isPrefixOf t)

/-! ## Stored values -/

/-- A value stored in a `DictTree`: the source descends through
dict-like parents (`keys()`/`__getitem__`) and lists, and treats
everything else as an opaque end node. -/
inductive Node where
  | leaf (n : Nat)
  | dict (entries : List (Str × Node))
  | list (elems : List Node)
deriving Repr

/-- `d[k]` lookup in an ordered dict (first match). -/
def dictGet : List (Str × Node) → Str → Option Node
  | [], _ => none
  | (k', v) :: rest, k => if k' = k then some v else dictGet rest k

/-- Replace the value at every occurrence of key `k` (keys are unique in
a Python dict, so this is plain in-place replacement). -/
def dictReplace : List (Str × Node) → Str → Node → List (Str × Node)
  | [], _, _ => []
  | (k', w) :: rest, k, v =>
    if k' = k then (k, v) :: dictReplace rest k v
    else (k', w) :: dictReplace rest k v

/-- `d[k] = v` on an ordered dict: replace in place when the key exists,
else append at the end. -/
def dictSet (d : List (Str × Node)) (k : Str) (v : Node) : List (Str × Node) :=
  if (dictGet d k).isSome then dictReplace d k v else d ++ [(k, v)]

/-- `del d[k]` on an ordered dict (the caller checks presence). -/
def dictDel : List (Str × Node) → Str → List (Str × Node)
  | [], _ => []
  | (k', v) :: rest, k =>
    if k' = k then dictDel rest k else (k', v) :: dictDel rest k

/-- Decimal value of a digit string. -/
def digitsVal (cs : List Char) : Nat :=
  cs.foldl (fun a c => a * 10 + (c.toNat - 48)) 0

/-- Python's `int(s)` on the strings that occur as uri segments:
an optional minus sign followed by decimal digits.  (Python also
strips whitespace and accepts `_` digit grouping; both are consistent
between the `get` and `set` paths and do not affect any claim.) -/
def pyInt (s : Str) : Option Int :=
  match s with
  | '-' :: rest =>
    if ¬rest.isEmpty ∧ rest.all Char.isDigit then some (-(digitsVal rest : Int)) else none
  | _ =>
    if ¬s.isEmpty ∧ s.all Char.isDigit then some (digitsVal s : Int) else none

/-- Normalize a Python sequence index: negative indices count from the
end; out-of-range indices are rejected. -/
def pyIdx (len : Nat) (i : Int) : Option Nat :=
  if 0 ≤ i then (if i < (len : Int) then some i.toNat else none)
  else (if 0 ≤ i + (len : Int) then some (i + (len : Int)).toNat else none)

/-- `xs[i]` on a Python list. -/
def pyListGet (xs : List Node) (i : Int) : Option Node :=
  (pyIdx xs.length i).bind (fun j => xs.get? j)

/-! ## `DictTree.get_from_uri`

The source (lines 91-127) pops segments off the split path; when a
segment is not a key of the current dict it keeps popping further
segments, gluing them with `'.'`, also trying a trailing-dot variant
(`k+'.'`), until a key matches or the path runs out (`IndexError`).
`findDotted` is that inner `while not found` loop; it returns the
matched key, its value, and the remaining path. -/

def findDotted (d : List (Str × Node)) (k : Str) : List Str → Except String (Str × Node × List Str)
  | [] => .error "IndexError: pop from empty list"
  | p :: rest =>
    let kp := k ++ '.' :: p
    match dictGet d kp with
    | some v => .ok (kp, v, rest)
    | none =>
      match dictGet d (kp ++ ['.']) with
      | some v => .ok (kp ++ ['.'], v, rest)
      | none => findDotted d kp rest

/-- The `while any(path)` loop of `get_from_uri`.  The fuel argument is
a plain bound on loop iterations: every step consumes at least one path
segment, so fuel `path.length` is always sufficient (the zero-fuel
branch is unreachable from `getLoop`). -/
def getLoopF : Nat → Node → List Str → Except String Node
  | _, itm, [] => .ok itm
  | 0, _, _ :: _ => .error "out of fuel"
  | fuel + 1, itm, k :: rest =>
    if (k :: rest).any (fun s => !s.isEmpty) then
      match itm with
      | .leaf _ => .error "AttributeError: object has no attribute keys"
      | .list xs =>
        match pyInt k with
        | none => .error "ValueError: invalid literal for int"
        | some i =>
          match pyListGet xs i with
          | none => .error "IndexError: list index out of range"
          | some v => getLoopF fuel v rest
      | .dict d =>
        match dictGet d k with
        | some v => getLoopF fuel v rest
        | none =>
          match findDotted d k rest with
          | .error e => .error e
          | .ok (_, v, rest') => getLoopF fuel v rest'
    else .ok itm

def getLoop (itm : Node) (path : List Str) : Except String Node :=
  getLoopF path.length itm path

/-! ## Functional update along the same traversal

`set_uri` and `delete_uri` mutate, through Python references, the
object that `get_from_uri` resolves for the parent uri.  The functional
rendering replays exactly the traversal of `getLoopF` and rebuilds the
spine, applying `f` to the located node. -/

def updLoopF (f : Node → Except String Node) : Nat → Node → List Str → Except String Node
  | _, itm, [] => f itm
  | 0, _, _ :: _ => .error "out of fuel"
  | fuel + 1, itm, k :: rest =>
    if (k :: rest).any (fun s => !s.isEmpty) then
      match itm with
      | .leaf _ => .error "AttributeError: object has no attribute keys"
      | .list xs =>
        match pyInt k with
        | none => .error "ValueError: invalid literal for int"
        | some i =>
          match pyIdx xs.length i with
          | none => .error "IndexError: list index out of range"
          | some j =>
            match xs.get? j with
            | none => .error "IndexError: list index out of range"
            | some v =>
              match updLoopF f fuel v rest with
              | .error e => .error e
              | .ok v' => .ok (.list (xs.set j v'))
      | .dict d =>
        match dictGet d k with
        | some v =>
          match updLoopF f fuel v rest with
          | .error e => .error e
          | .ok v' => .ok (.dict (dictSet d k v'))
        | none =>
          match findDotted d k rest with
          | .error e => .error e
          | .ok (key, v, rest') =>
            match updLoopF f fuel v rest' with
            | .error e => .error e
            | .ok v' => .ok (.dict (dictSet d key v'))
    else f itm

def updLoop (itm : Node) (path : List Str) (f : Node → Except String Node) : Except String Node :=
  updLoopF f path.length itm path

/-- Update below the root dict; the root of a `DictTree` is always an
ordered dict, so the non-dict result branch is unreachable. -/
def updRoot (root : List (Str × Node)) (p : List Str) (f : Node → Except String Node) :
    Except String (List (Str × Node)) :=
  match updLoop (.dict root) p f with
  | .ok (.dict d) => .ok d
  | .ok _ => .error "root replaced by a non-dict"
  | .error e => .error e

/-- `itm[k] = val` at the parent located by `set_uri` (lines 78-83):
lists convert the segment with `int(k)` and assign in range; dict-likes
assign directly; anything else raises. -/
def assign (k : Str) (val : Node) : Node → Except String Node
  | .dict d => .ok (.dict (dictSet d k val))
  | .list xs =>
    match pyInt k with
    | none => .error "ValueError: invalid literal for int"
    | some i =>
      match pyIdx xs.length i with
      | none => .error "IndexError: list assignment index out of range"
      | some j => .ok (.list (xs.set j val))
  | .leaf _ => .error "TypeError: object does not support item assignment"

/-- `del itm[k]` at the parent located by `delete_uri` (line 56):
only dict-likes support string-key deletion; a missing key raises
`KeyError`. -/
def delAssign (k : Str) : Node → Except String Node
  | .dict d =>
    if (dictGet d k).isSome then .ok (.dict (dictDel d k)) else .error "KeyError"
  | .list _ => .error "TypeError: list indices must be integers"
  | .leaf _ => .error "TypeError: object does not support item deletion"

/-! ## The DictTree itself -/

/-- `DictTree`: the ordered root mapping plus the flat registry
`_all_uris` of every uri successfully written. -/
structure DictTree where
  root : List (Str × Node)
  all_uris : List Str
deriving Repr

/-- `DictTree({})`. -/
def DictTree.empty : DictTree := ⟨[], []⟩

/-- `get_from_uri` (lines 91-127). -/
def get_from_uri (t : DictTree) (uri : Str) : Except String Node :=
  getLoop (.dict t.root) (splitDots uri)

/-- Registry append of `set_uri` (lines 84-85): record the uri unless
it is already present. -/
def regAdd (reg : List Str) (u : Str) : List Str :=
  if u ∈ reg then reg else reg ++ [u]

/-- `set_uri` (lines 67-89).  `uri[:uri.rfind('.')]` splits into the
leading segments (`path.dropLast`) and `uri.split('.')[-1]` is the last
segment; `'.' in uri` holds iff the split has more than one piece.
When the last segment is empty nothing is assigned (but the parent is
still resolved first when the uri contains a dot, so a bad parent still
raises); otherwise the parent is resolved by the `get_from_uri`
traversal and mutated in place, and the uri is recorded. -/
def set_uri (t : DictTree) (uri : Str) (val : Node) : Except String DictTree :=
  let path := splitDots uri
  let k := path.getLastD []
  if k.isEmpty then
    if 1 < path.length then
      match getLoop (.dict t.root) path.dropLast with
      | .error e => .error e
      | .ok _ => .ok t
    else .ok t
  else
    match updRoot t.root path.dropLast (assign k val) with
    | .error e => .error e
    | .ok root' => .ok ⟨root', regAdd t.all_uris uri⟩

/-- `delete_uri` (lines 41-65).  Same parent location as `set_uri`;
after a successful `del`, every registered uri containing the deleted
uri as a substring (`if uri in testuri`, line 59) is dropped from
`_all_uris`. -/
def delete_uri (t : DictTree) (uri : Str) : Except String DictTree :=
  let path := splitDots uri
  let k := path.getLastD []
  if k.isEmpty then
    if 1 < path.length then
      match getLoop (.dict t.root) path.dropLast with
      | .error e => .error e
      | .ok _ => .ok t
    else .ok t
  else
    match updRoot t.root path.dropLast (delAssign k) with
    | .error e => .error e
    | .ok root' => .ok ⟨root', t.all_uris.filter (fun w => ¬(pyIn uri w = true))⟩

/-- `contains_uri` (line 180-182). -/
def contains_uri (t : DictTree) (uri : Str) : Bool := uri ∈ t.all_uris

/-! ## Workflow: dependency resolution (`Workflow.py`)

The `Operation` base module (`paws/core/operations/Operation.py`) is
not part of the sources; only the pieces the resolver reads are
modelled.  Modelled from the spec: the synthetic sub-node tags
`opmod.inputs_tag` / `opmod.outputs_tag` are the `inputs` / `outputs`
sub-uris of §3/§4.4, and `opmod.workflow_item` is the
"workflow-item reference" locator kind of the `InputLocator` data
model (§3). -/

/-- Modelled from the spec: the locator *kind* of an `InputLocator` —
literal value, filesystem path, runtime-only reference, or
workflow-item reference (`opmod` constants are not in the sources). -/
inductive LocKind where
  | basic
  | path
  | runtime
  | workflow_item
deriving Repr, DecidableEq

/-- Modelled from the spec: `opmod.inputs_tag` is the `inputs`
sub-uri tag. -/
def inputs_tag : Str := str "inputs"

/-- Modelled from the spec: `opmod.outputs_tag` is the `outputs`
sub-uri tag. -/
def outputs_tag : Str := str "outputs"

/-- An `InputLocator`: a kind and a payload value.  The resolver only
compares `il.val` against the list of valid workflow inputs, so the
payload is modelled as the single referenced uri (list-valued payloads
never compare equal to a uri in `is_op_ready` and are not needed by
any claim). -/
structure InputLocator where
  tp : LocKind
  val : Str
deriving Repr

/-- The parts of an `Operation` the workflow engine reads: the ordered
`input_locator` mapping, the input and output name sets (the keys of
`op.inputs` / `op.outputs`), and the outcome of `op.run()`
(`.error` models a raised exception, `.ok` the produced outputs). -/
structure Oper where
  input_locator : List (Str × InputLocator)
  inputs : List Str
  outputs : List Str
  runResult : Except String (List (Str × Node))
deriving Repr

/-- One top-level child of a Workflow: an operation tag's data plus its
`TreeItem.flags['enable']` flag (read by `is_op_enabled`). -/
structure WfEntry where
  op : Oper
  enabled : Bool
deriving Repr

/-- A Workflow, reduced to what the resolver reads: the ordered mapping
from operation tag to entry (`list_op_tags` iterates its keys,
`n_ops` counts them). -/
structure Wf where
  ops : List (Str × WfEntry)
deriving Repr

/-- `Workflow.stack_contains` (lines 214-223).  Stages are lists of
tags, so the nested-list branch of the source (which would crash on an
unqualified recursive call) is unreachable and not modelled. -/
def stack_contains (tag : Str) (stk : List (List Str)) : Bool :=
  stk.any (fun l => tag ∈ l)

/-- `Workflow.stack_size` (lines 225-234), on stages of tags. -/
def stack_size (stk : List (List Str)) : Nat :=
  (stk.map List.length).sum

/-- A single quote character, written by code point. -/
def squote : Str := [Char.ofNat 39]

/-- `'{}'.format(valid_wf_inputs)` on a Python list of strings:
its repr, `['a', 'b']`. -/
def pyReprList (l : List Str) : Str :=
  '[' :: (joinsep (l.map (fun s => squote ++ s ++ squote))) ++ [']']
where
  joinsep : List Str → Str
    | [] => []
    | [s] => s
    | s :: rest => s ++ ',' :: ' ' :: joinsep rest

/-- `dict[k] = v` on a Python dict of strings (diagnostics): replace in
place or append. -/
def sdictSet (d : List (Str × Str)) (k v : Str) : List (Str × Str) :=
  if d.any (fun p => p.1 = k) then d.map (fun p => if p.1 = k then (k, v) else p)
  else d ++ [(k, v)]

/-- `dict.get` on a diagnostics dict. -/
def sdictGet : List (Str × Str) → Str → Option Str
  | [], _ => none
  | (k', v) :: rest, k => if k' = k then some v else sdictGet rest k

/-- `dict.update` on a diagnostics dict. -/
def sdictUpdate (d upd : List (Str × Str)) : List (Str × Str) :=
  upd.foldl (fun acc p => sdictSet acc p.1 p.2) d

/-- `Workflow.is_op_ready` (lines 236-256): one diagnostics entry per
declared input locator, keyed `op_tag.inputs.name`; a workflow-item
input whose uri is not yet a valid workflow input blocks readiness and
gets a message naming that uri; every other input is ready with an
empty message.  Ready iff all inputs are ready (`all([]) == True`). -/
def is_op_ready (op_tag : Str) (op : Oper) (valid_wf_inputs : List Str) :
    Bool × List (Str × Str) :=
  let step := op.input_locator.foldl
    (fun (acc : List Bool × List (Str × Str)) nameIl =>
      let name := nameIl.1
      let il := nameIl.2
      let res : Bool × Str :=
        if il.tp = .workflow_item ∧ ¬(il.val ∈ valid_wf_inputs) then
          (false, str "Operation input " ++ name ++ str " (=" ++ il.val
            ++ str ") not found in valid Workflow input list: "
            ++ pyReprList valid_wf_inputs)
        else (true, [])
      (acc.1 ++ [res.1],
        sdictSet acc.2 (op_tag ++ '.' :: inputs_tag ++ '.' :: name) res.2))
    ([], [])
  (step.1.all (fun b => b), step.2)

/-- `Workflow.get_valid_wf_inputs` (lines 258-268): the operation uri,
its `inputs`/`outputs` sub-uris, and each individual output and input
uri. -/
def get_valid_wf_inputs (op_tag : Str) (op : Oper) : List Str :=
  [op_tag, op_tag ++ '.' :: inputs_tag, op_tag ++ '.' :: outputs_tag]
    ++ op.outputs.map (fun k => op_tag ++ '.' :: outputs_tag ++ '.' :: k)
    ++ op.inputs.map (fun k => op_tag ++ '.' :: inputs_tag ++ '.' :: k)

/-- One pass of the `for op_tag in self.list_op_tags()` loop inside
`execution_stack` (lines 193-204): returns the newly-ready (tag, op)
pairs in order, and the updated diagnostics.  A disabled operation is
skipped entirely — the source builds
`op_diag = {op_tag:'Operation is disabled'}` but never merges it into
`diagnostics` (the `diagnostics.update(op_diag)` call sits only in the
enabled branch).  An enabled, not yet scheduled operation is classified
by `is_op_ready` and its per-input diagnostics are merged.  (The source
re-fetches the operation by tag; tags are unique keys of the root
mapping, so the fetched operation is the entry's own.) -/
def roundStep (wf : Wf) (stk : List (List Str)) (valid : List Str)
    (diag : List (Str × Str)) : List (Str × Oper) × List (Str × Str) :=
  wf.ops.foldl
    (fun (acc : List (Str × Oper) × List (Str × Str)) tagged =>
      let tag := tagged.1
      let entry := tagged.2
      if ¬entry.enabled then acc
      else if ¬(stack_contains tag stk = true) then
        let r := is_op_ready tag entry.op valid
        let diag' := sdictUpdate acc.2 r.2
        if r.1 then (acc.1 ++ [(tag, entry.op)], diag') else (acc.1, diag')
      else acc)
    ([], diag)

/-- The `valid_wf_inputs += self.get_valid_wf_inputs(op_tag,op)` loop
over the newly-ready operations (lines 207-209). -/
def validGrowth (rdy : List (Str × Oper)) : List Str :=
  rdy.foldl (fun acc p => acc ++ get_valid_wf_inputs p.1 p.2) []

/-- The `while` loop of `execution_stack` (lines 190-211), with an
iteration bound.  Each productive round schedules at least one
previously-unscheduled tag, so `n_ops + 1` rounds always suffice;
`none` (fuel exhausted) therefore never escapes `execution_stack` and
a `some` result is an actual termination of the source loop. -/
def stackLoop (wf : Wf) : Nat → List (List Str) → List Str → List (Str × Str) →
    Option (List (List Str) × List (Str × Str))
  | 0, _, _, _ => none
  | fuel + 1, stk, valid, diag =>
    if stack_size stk = wf.ops.length then some (stk, diag)
    else
      let r := roundStep wf stk valid diag
      if r.1.isEmpty then some (stk, r.2)
      else stackLoop wf fuel (stk ++ [r.1.map Prod.fst]) (valid ++ validGrowth r.1) r.2

/-- `Workflow.execution_stack` (lines 180-212): the stage list and the
diagnostics dictionary. -/
def execution_stack (wf : Wf) : Option (List (List Str) × List (Str × Str)) :=
  stackLoop wf (wf.ops.length + 1) [] [] []

/-- `Workflow.execute` (lines 132-152).  Its first statement after
computing the stack is
`self.logmethod(os.linesep+'running workflow:'+...)`, but `Workflow.py`
never imports `os`, so evaluating the argument raises
`NameError: name 'os' is not defined` before any stage runs; the loop
body below it (including `op.run()`) is unreachable, and the
`try/except` that would have attached the failing operation's tag is
commented out in the source (lines 148-152). -/
def execute (wf : Wf) : Except String (List (List Str)) :=
  match execution_stack wf with
  | none => .error "resolver loop did not exit"
  | some _ => .error "NameError: name os is not defined"

/-! ## `WfManager` (`wf_manager.py`) -/

/-- `WfManager`, reduced to its `workflows` dict.  Workflow instances
are represented by identity tokens (`Nat`); `next_id` supplies the
fresh token for each `Workflow(self)` construction.  The Qt signal
wiring and the companion `WorkflowPlugin` registration performed by
`add_wf` are side channels not read by any claim and are not
modelled. -/
structure WfM where
  workflows : List (Str × Nat)
  next_id : Nat
deriving Repr

/-- `dict[k] = v` on the workflows dict. -/
def wdictSet (d : List (Str × Nat)) (k : Str) (v : Nat) : List (Str × Nat) :=
  if d.any (fun p => p.1 = k) then d.map (fun p => if p.1 = k then (k, v) else p)
  else d ++ [(k, v)]

def wdictGet : List (Str × Nat) → Str → Option Nat
  | [], _ => none
  | (k', v) :: rest, k => if k' = k then some v else wdictGet rest k

/-- `WfManager.add_wf` (lines 147-161): builds a fresh `Workflow` and
stores it with `self.workflows[wfname] = wf` — by its own docstring,
"If wfname is not unique ..., this method will overwrite the existing
workflow with a new one."  It never consults `auto_name`. -/
def add_wf (m : WfM) (wfname : Str) : WfM :=
  ⟨wdictSet m.workflows wfname m.next_id, m.next_id + 1⟩

/-- `WfManager.auto_name` (lines 56-70): try `wfname`, then
`wfname_1`, `wfname_2`, … until a name is not a key of
`self.workflows`.  The candidates are pairwise distinct, so
`len(workflows) + 1` tries always reach an unused name; the fuel bound
makes that explicit. -/
def auto_name (m : WfM) (wfname : Str) : Option Str :=
  loop (m.workflows.length + 1) wfname 1
where
  loop : Nat → Str → Nat → Option Str
    | 0, _, _ => none
    | fuel + 1, cand, idx =>
      if m.workflows.any (fun p => p.1 = cand) then
        loop fuel (wfname ++ '_' :: Nat.toDigits 10 idx) (idx + 1)
      else some cand

/-! ## `PawsAPI.load_from_wfl` (`api/__init__.py`, lines 150-209) -/

/-- A parsed `.wfl` document, for the purposes of the version check:
the `PAWS_VERSION` field as a `(major, minor, patch)` triple when
present (the source extracts it with the regex
`(\d+)\.(\d+)\.(\d+)`; parsing is abstracted).  The remaining fields
(`OP_ACTIVATION_FLAGS`, `WORKFLOWS`, `PLUGINS`) are restored by
managers that are not under the sources, and their processing follows
the version check, so they are abstracted behind the success value. -/
structure WflData where
  version : Option (Nat × Nat × Nat)

/-- `PawsAPI.load_from_wfl`, modelled down to its version check
(lines 171-187).  A missing `PAWS_VERSION` defaults to `0.0.0`.  When
the saved major is behind the current major, or the saved minor is
behind the current minor, the source enters the warning branch, logs
the warning string, and then executes `self.logmethod(msg)` — but no
variable `msg` is in scope, so this raises
`NameError: name 'msg' is not defined` and the load aborts before any
state is restored.  Otherwise loading proceeds (restoration
abstracted as success). -/
def load_from_wfl (current : Nat × Nat × Nat) (d : WflData) : Except String Unit :=
  let v := d.version.getD (0, 0, 0)
  if v.1 < current.1 ∨ v.2.1 < current.2.1 then
    .error "NameError: name msg is not defined"
  else .ok ()

/-- The specification's nesting relation between uris: `w` is nested
under `u` when `u` is a dot-path prefix of `w`, i.e. the tag segments
of `u` are a prefix of the tag segments of `w`. -/
def specNestedUnder (u w : Str) : Bool :=
  (splitDots u).isPrefixOf (splitDots w)

/-- All segments of a uri are valid tags (the data-model notion of a
valid uri: tag segments joined by dots). -/
def validTagPath (u : Str) : Bool :=
  (splitDots u).all is_tag_valid

/-! Well-formed stores.  The specification's data model (§3) has every
interior node an ordered mapping with valid tags as keys; embedded
Python lists and dotted keys only arise from values injected around
the interface.  Several preservation results hold on this class. -/

mutual
/-- A node is well-formed when every mapping below it has valid-tag
keys and no Python list is embedded as an interior value. -/
def wfNode : Node → Bool
  | .leaf _ => true
  | .dict d => wfEntries d
  | .list _ => false

/-- Well-formedness of a mapping's entries. -/
def wfEntries : List (Str × Node) → Bool
  | [] => true
  | (k, v) :: rest => is_tag_valid k && wfNode v && wfEntries rest
end

/-- Plain descent through well-formed mappings: the traversal that
`get_from_uri` performs on a well-formed store (no dotted-key fallback
fires, no list indexing occurs). -/
def pdescend : Node → List Str → Option Node
  | itm, [] => some itm
  | .dict d, s :: rest =>
    match dictGet d s with
    | some v => pdescend v rest
    | none => none
  | .leaf _, _ :: _ => none
  | .list _, _ :: _ => none

/-- Plain functional replacement of the node at a path through
well-formed mappings. -/
def pReplace : Node → List Str → Node → Option Node
  | _, [], n => some n
  | .dict d, s :: rest, n =>
    match dictGet d s with
    | some v =>
      match pReplace v rest n with
      | some v' => some (.dict (dictSet d s v'))
      | none => none
    | none => none
  | .leaf _, _ :: _, _ => none
  | .list _, _ :: _, _ => none

/-- `m'` is `m` with at most the child at key `k` changed (the shape of
both a `d[k] = v` assignment and a `del d[k]` deletion at a mapping). -/
def sameChildrenExcept (k : Str) (m m' : Node) : Prop :=
  ∃ d d', m = .dict d ∧ m' = .dict d' ∧
    ∀ s, s ≠ k → dictGet d' s = dictGet d s

/-- A `set_uri`/`delete_uri` call against a store, for reasoning about
operation sequences. -/
inductive StoreOp where
  | sets (u : Str) (v : Node)
  | dels (u : Str)

/-- Apply one operation: a raised exception leaves the store as it was
(both methods mutate only after all resolution has succeeded). -/
def applyOp (t : DictTree) : StoreOp → DictTree
  | .sets u v =>
    match set_uri t u v with
    | .ok t' => t'
    | .error _ => t
  | .dels u =>
    match delete_uri t u with
    | .ok t' => t'
    | .error _ => t

/-- The constraints under which the registry invariant holds: sets use
valid-tag uris and well-formed values and never overwrite a proper
dot-path ancestor of a registered uri; deletes use valid-tag uris. -/
def goodOp (t : DictTree) : StoreOp → Prop
  | .sets u v => validTagPath u = true ∧ wfNode v = true ∧
      ∀ w ∈ t.all_uris, specNestedUnder u w = true → w = u
  | .dels u => validTagPath u = true

/-- Each operation of the sequence satisfies `goodOp` in the state it
is applied to. -/
def goodSeq : DictTree → List StoreOp → Prop
  | _, [] => True
  | t, op :: rest => goodOp t op ∧ goodSeq (applyOp t op) rest

/-! ## Basic lemmas about the helper operations -/

theorem dictGet_dictReplace_self (d : List (Str × Node)) (k : Str) (v : Node)
    (h : (dictGet d k).isSome) : dictGet (dictReplace d k v) k = some v := by
  induction d with
  | nil => simp [dictGet] at h
  | cons p rest ih =>
    obtain ⟨k', w⟩ := p
    by_cases hk : k' = k
    · simp [dictReplace, dictGet, hk]
    · rw [dictGet, if_neg hk] at h
      rw [dictReplace, if_neg hk, dictGet, if_neg hk]
      exact ih h

theorem dictGet_dictReplace_ne (d : List (Str × Node)) (k s : Str) (v : Node)
    (h : s ≠ k) : dictGet (dictReplace d k v) s = dictGet d s := by
  induction d with
  | nil => simp [dictReplace]
  | cons p rest ih =>
    obtain ⟨k', w⟩ := p
    by_cases hk : k' = k
    · have hks : ¬(k = s) := fun he => h he.symm
      have hk's : ¬(k' = s) := by rw [hk]; exact hks
      rw [dictReplace, if_pos hk, dictGet, if_neg hks, dictGet, if_neg hk's]
      exact ih
    · rw [dictReplace, if_neg hk, dictGet, dictGet]
      by_cases hs : k' = s
      · rw [if_pos hs, if_pos hs]
      · rw [if_neg hs, if_neg hs]
        exact ih

theorem dictGet_append_of_none (d e : List (Str × Node)) (k : Str)
    (h : dictGet d k = none) : dictGet (d ++ e) k = dictGet e k := by
  induction d with
  | nil => simp
  | cons p rest ih =>
    obtain ⟨k', w⟩ := p
    by_cases hk : k' = k
    · rw [dictGet, if_pos hk] at h; exact absurd h (by simp)
    · rw [dictGet, if_neg hk] at h
      rw [List.cons_append, dictGet, if_neg hk]
      exact ih h

theorem dictGet_dictSet_self (d : List (Str × Node)) (k : Str) (v : Node) :
    dictGet (dictSet d k v) k = some v := by
  by_cases h : (dictGet d k).isSome
  · simp only [dictSet, if_pos h]
    exact dictGet_dictReplace_self d k v h
  · simp only [dictSet, if_neg h]
    have hn : dictGet d k = none := by
      cases hc : dictGet d k with
      | none => rfl
      | some x => rw [hc] at h; exact absurd rfl h
    rw [dictGet_append_of_none d _ k hn, dictGet, if_pos rfl]

theorem dictGet_dictSet_ne (d : List (Str × Node)) (k s : Str) (v : Node)
    (h : s ≠ k) : dictGet (dictSet d k v) s = dictGet d s := by
  by_cases hm : (dictGet d k).isSome
  · simp only [dictSet, if_pos hm]
    exact dictGet_dictReplace_ne d k s v h
  · simp only [dictSet, if_neg hm]
    have hn : dictGet d k = none := Option.not_isSome_iff_eq_none.mp hm
    clear hm
    induction d with
    | nil =>
      have hks : ¬(k = s) := fun he => h he.symm
      simp [dictGet, hks]
    | cons p rest ih =>
      obtain ⟨k', w⟩ := p
      rw [dictGet] at hn
      by_cases hkk : k' = k
      · rw [if_pos hkk] at hn
        exact absurd hn (by simp)
      · rw [if_neg hkk] at hn
        rw [List.cons_append, dictGet, dictGet]
        by_cases hs : k' = s
        · rw [if_pos hs, if_pos hs]
        · rw [if_neg hs, if_neg hs]
          exact ih hn

theorem dictGet_dictDel_self (d : List (Str × Node)) (k : Str) :
    dictGet (dictDel d k) k = none := by
  induction d with
  | nil => simp [dictDel, dictGet]
  | cons p rest ih =>
    obtain ⟨k', w⟩ := p
    by_cases hk : k' = k
    · rw [dictDel, if_pos hk]
      exact ih
    · rw [dictDel, if_neg hk, dictGet, if_neg hk]
      exact ih

theorem dictGet_dictDel_ne (d : List (Str × Node)) (k s : Str) (h : s ≠ k) :
    dictGet (dictDel d k) s = dictGet d s := by
  induction d with
  | nil => simp [dictDel]
  | cons p rest ih =>
    obtain ⟨k', w⟩ := p
    by_cases hk : k' = k
    · have hk's : ¬(k' = s) := by rw [hk]; exact fun he => h he.symm
      rw [dictDel, if_pos hk, dictGet, if_neg hk's]
      exact ih
    · rw [dictDel, if_neg hk, dictGet, dictGet]
      by_cases hs : k' = s
      · rw [if_pos hs, if_pos hs]
      · rw [if_neg hs, if_neg hs]
        exact ih


theorem splitDots_ne_nil (u : Str) : splitDots u ≠ [] := by
  cases u with
  | nil => simp [splitDots]
  | cons c rest =>
    simp only [splitDots]
    match h : splitDots rest with
    | [] => simp
    | s :: ss => by_cases hc : c = '.' <;> simp [hc]

theorem joinDots_splitDots (u : Str) : joinDots (splitDots u) = u := by
  induction u with
  | nil => simp [splitDots, joinDots]
  | cons c rest ih =>
    simp only [splitDots]
    match h : splitDots rest with
    | [] => exact absurd h (splitDots_ne_nil rest)
    | s :: ss =>
      rw [h] at ih
      by_cases hc : c = '.'
      · subst hc
        simp only [if_pos rfl]
        cases ss with
        | nil => simp [joinDots] at ih ⊢; exact ih
        | cons t ts => simp [joinDots] at ih ⊢; exact ih
      · simp only [if_neg hc]
        cases ss with
        | nil => simp [joinDots] at ih ⊢; exact ih
        | cons t ts => simp [joinDots] at ih ⊢; exact ih

theorem joinDots_append (A B : List Str) (hA : A ≠ []) (hB : B ≠ []) :
    joinDots (A ++ B) = joinDots A ++ '.' :: joinDots B := by
  induction A with
  | nil => exact absurd rfl hA
  | cons s rest ih =>
    cases rest with
    | nil =>
      cases B with
      | nil => exact absurd rfl hB
      | cons b bs => simp [joinDots]
    | cons t ts =>
      have h2 := ih (by simp)
      calc joinDots (s :: t :: ts ++ B)
          = s ++ '.' :: joinDots (t :: ts ++ B) := by simp [joinDots]
        _ = s ++ '.' :: (joinDots (t :: ts) ++ '.' :: joinDots B) := by rw [h2]
        _ = (s ++ '.' :: joinDots (t :: ts)) ++ '.' :: joinDots B := by simp
        _ = joinDots (s :: t :: ts) ++ '.' :: joinDots B := by simp [joinDots]

theorem pyIn_of_prefix (sub rest : Str) : pyIn sub (sub ++ rest) = true := by
  simp only [pyIn, List.any_eq_true]
  refine ⟨sub ++ rest, ?_, ?_⟩
  · exact (List.mem_tails _ _).mpr (List.suffix_refl _)
  · exact List.isPrefixOf_iff_prefix.mpr ⟨rest, rfl⟩

/-! ## Lemmas about the `get_from_uri` traversal -/

theorem findDotted_ok_get {d : List (Str × Node)} {k : Str} {path : List Str}
    {key : Str} {v : Node} {rest' : List Str}
    (h : findDotted d k path = .ok (key, v, rest')) : dictGet d key = some v := by
  induction path generalizing k with
  | nil => simp [findDotted] at h
  | cons p rest ih =>
    rw [findDotted] at h
    cases h1 : dictGet d (k ++ '.' :: p) with
    | some w =>
      rw [h1] at h
      simp only [Except.ok.injEq, Prod.mk.injEq] at h
      obtain ⟨hk, hv, -⟩ := h
      rw [← hk, h1, hv]
    | none =>
      rw [h1] at h
      cases h2 : dictGet d (k ++ '.' :: p ++ ['.']) with
      | some w =>
        rw [h2] at h
        simp only [Except.ok.injEq, Prod.mk.injEq] at h
        obtain ⟨hk, hv, -⟩ := h
        rw [← hk, h2, hv]
      | none =>
        rw [h2] at h
        exact ih h

theorem findDotted_ok_suffix {d : List (Str × Node)} {k : Str} {path : List Str}
    {key : Str} {v : Node} {rest' : List Str}
    (h : findDotted d k path = .ok (key, v, rest')) : rest' <:+ path := by
  induction path generalizing k with
  | nil => simp [findDotted] at h
  | cons p rest ih =>
    rw [findDotted] at h
    cases h1 : dictGet d (k ++ '.' :: p) with
    | some w =>
      rw [h1] at h
      simp only [Except.ok.injEq, Prod.mk.injEq] at h
      obtain ⟨-, -, hr⟩ := h
      rw [← hr]
      exact List.suffix_cons p rest
    | none =>
      rw [h1] at h
      cases h2 : dictGet d (k ++ '.' :: p ++ ['.']) with
      | some w =>
        rw [h2] at h
        simp only [Except.ok.injEq, Prod.mk.injEq] at h
        obtain ⟨-, -, hr⟩ := h
        rw [← hr]
        exact List.suffix_cons p rest
      | none =>
        rw [h2] at h
        exact (ih h).trans (List.suffix_cons p rest)

theorem findDotted_ok_len {d : List (Str × Node)} {k : Str} {path : List Str}
    {key : Str} {v : Node} {rest' : List Str}
    (h : findDotted d k path = .ok (key, v, rest')) : rest'.length < path.length := by
  cases path with
  | nil => simp [findDotted] at h
  | cons p rest =>
    have hsuf : rest' <:+ rest := by
      have h0 := findDotted_ok_suffix h
      rw [findDotted] at h
      cases h1 : dictGet d (k ++ '.' :: p) with
      | some w =>
        rw [h1] at h
        simp only [Except.ok.injEq, Prod.mk.injEq] at h
        obtain ⟨-, -, hr⟩ := h
        rw [← hr]
      | none =>
        rw [h1] at h
        cases h2 : dictGet d (k ++ '.' :: p ++ ['.']) with
        | some w =>
          rw [h2] at h
          simp only [Except.ok.injEq, Prod.mk.injEq] at h
          obtain ⟨-, -, hr⟩ := h
          rw [← hr]
        | none =>
          rw [h2] at h
          exact findDotted_ok_suffix h
    calc rest'.length ≤ rest.length := hsuf.length_le
      _ < (p :: rest).length := by simp

theorem findDotted_append {d : List (Str × Node)} {k : Str} {path : List Str}
    {key : Str} {v : Node} {rest' : List Str} (q : List Str)
    (h : findDotted d k path = .ok (key, v, rest')) :
    findDotted d k (path ++ q) = .ok (key, v, rest' ++ q) := by
  induction path generalizing k with
  | nil => simp [findDotted] at h
  | cons p rest ih =>
    simp only [List.cons_append, findDotted] at h ⊢
    cases h1 : dictGet d (k ++ '.' :: p) with
    | some w =>
      rw [h1] at h
      simp only [Except.ok.injEq, Prod.mk.injEq] at h
      obtain ⟨hk, hv, hr⟩ := h
      simp only [Except.ok.injEq, Prod.mk.injEq]
      exact ⟨hk, hv, by rw [← hr]; rfl⟩
    | none =>
      rw [h1] at h
      cases h2 : dictGet d (k ++ '.' :: p ++ ['.']) with
      | some w =>
        rw [h2] at h
        simp only [Except.ok.injEq, Prod.mk.injEq] at h
        obtain ⟨hk, hv, hr⟩ := h
        simp only [Except.ok.injEq, Prod.mk.injEq]
        exact ⟨hk, hv, by rw [← hr]; rfl⟩
      | none =>
        rw [h2] at h
        exact ih h

/-- Updating the value of the key that `findDotted` matched does not
change which key it matches. -/
theorem findDotted_dictSet {d : List (Str × Node)} {k : Str} {path : List Str}
    {key : Str} {v : Node} {rest' : List Str} (w : Node)
    (h : findDotted d k path = .ok (key, v, rest')) :
    findDotted (dictSet d key w) k path = .ok (key, w, rest') := by
  have hkey : (dictGet d key).isSome := by rw [findDotted_ok_get h]; rfl
  induction path generalizing k with
  | nil => simp [findDotted] at h
  | cons p rest ih =>
    rw [findDotted] at h
    simp only [findDotted]
    cases h1 : dictGet d (k ++ '.' :: p) with
    | some x =>
      rw [h1] at h
      simp only [Except.ok.injEq, Prod.mk.injEq] at h
      obtain ⟨hk, -, hr⟩ := h
      rw [hk]
      rw [hk] at h1
      rw [dictGet_dictSet_self d key w]
      simp only [Except.ok.injEq, Prod.mk.injEq]
      exact ⟨trivial, trivial, hr⟩
    | none =>
      rw [h1] at h
      have hne1 : k ++ '.' :: p ≠ key := by
        intro he
        rw [he] at h1
        rw [h1] at hkey
        simp at hkey
      rw [dictGet_dictSet_ne d key _ w hne1, h1]
      cases h2 : dictGet d (k ++ '.' :: p ++ ['.']) with
      | some x =>
        rw [h2] at h
        simp only [Except.ok.injEq, Prod.mk.injEq] at h
        obtain ⟨hk, -, hr⟩ := h
        rw [hk]
        rw [hk] at h2
        rw [dictGet_dictSet_self d key w]
        simp only [Except.ok.injEq, Prod.mk.injEq]
        exact ⟨trivial, trivial, hr⟩
      | none =>
        rw [h2] at h
        have hne2 : k ++ '.' :: p ++ ['.'] ≠ key := by
          intro he
          rw [he] at h2
          rw [h2] at hkey
          simp at hkey
        rw [dictGet_dictSet_ne d key _ w hne2, h2]
        exact ih h

theorem getLoopF_nil (fuel : Nat) (itm : Node) : getLoopF fuel itm [] = .ok itm := by
  cases fuel <;> rfl

theorem getLoopF_cons (fuel : Nat) (itm : Node) (k : Str) (rest : List Str) :
    getLoopF (fuel + 1) itm (k :: rest) =
      if (k :: rest).any (fun s => !s.isEmpty) then
        match itm with
        | .leaf _ => .error "AttributeError: object has no attribute keys"
        | .list xs =>
          match pyInt k with
          | none => .error "ValueError: invalid literal for int"
          | some i =>
            match pyListGet xs i with
            | none => .error "IndexError: list index out of range"
            | some v => getLoopF fuel v rest
        | .dict d =>
          match dictGet d k with
          | some v => getLoopF fuel v rest
          | none =>
            match findDotted d k rest with
            | .error e => .error e
            | .ok (_, v, rest') => getLoopF fuel v rest'
      else .ok itm := rfl

/-- Any fuel at least `path.length` computes the same traversal. -/
theorem getLoopF_fuel {fuel fuel' : Nat} :
    ∀ {path : List Str} {itm : Node}, path.length ≤ fuel → path.length ≤ fuel' →
      getLoopF fuel itm path = getLoopF fuel' itm path := by
  induction fuel generalizing fuel' with
  | zero =>
    intro path itm h h'
    have : path = [] := List.eq_nil_of_length_eq_zero (Nat.le_zero.mp h)
    subst this
    rw [getLoopF_nil, getLoopF_nil]
  | succ fu ih =>
    intro path itm h h'
    cases path with
    | nil => rw [getLoopF_nil, getLoopF_nil]
    | cons k rest =>
      cases fuel' with
      | zero => simp at h'
      | succ fu' =>
        rw [getLoopF_cons, getLoopF_cons]
        by_cases hg : (k :: rest).any (fun s => !s.isEmpty) = true
        · rw [if_pos hg, if_pos hg]
          have hr : rest.length ≤ fu := by simp at h; omega
          have hr' : rest.length ≤ fu' := by simp at h'; omega
          cases itm with
          | leaf n => rfl
          | list xs =>
            dsimp only
            cases pyInt k with
            | none => rfl
            | some i =>
              dsimp only
              cases pyListGet xs i with
              | none => rfl
              | some v => exact ih hr hr'
          | dict d =>
            dsimp only
            cases dictGet d k with
            | some v => exact ih hr hr'
            | none =>
              dsimp only
              cases hf : findDotted d k rest with
              | error e => rfl
              | ok r =>
                obtain ⟨key, v, rest'⟩ := r
                have hlen := findDotted_ok_len hf
                simp only [List.length_cons] at hlen
                exact ih (by omega) (by omega)
        · rw [if_neg hg, if_neg hg]

/-- Traversing `path ++ q` first traverses `path`, when the traversal
of `path` (made of nonempty segments) succeeds. -/
theorem getLoopF_append {q : List Str} :
    ∀ {fuel : Nat} {path : List Str} {itm m : Node}, path.length ≤ fuel →
      (∀ s ∈ path, s ≠ []) →
      getLoopF fuel itm path = .ok m →
      getLoopF (fuel + q.length) itm (path ++ q) = getLoopF q.length m q := by
  intro fuel
  induction fuel with
  | zero =>
    intro path itm m h hne hok
    have : path = [] := List.eq_nil_of_length_eq_zero (Nat.le_zero.mp h)
    subst this
    rw [getLoopF_nil] at hok
    cases hok
    rw [List.nil_append, Nat.zero_add]
  | succ fu ih =>
    intro path itm m h hne hok
    cases path with
    | nil =>
      rw [getLoopF_nil] at hok
      cases hok
      rw [List.nil_append]
      exact getLoopF_fuel (by omega) (le_refl _)
    | cons k rest =>
      have hkne : k ≠ [] := hne k (by simp)
      have hg : ((k :: rest).any (fun s => !s.isEmpty)) = true := by
        simp only [List.any_cons, Bool.or_eq_true]
        left
        simp [hkne]
      have hgq : ((k :: (rest ++ q)).any (fun s => !s.isEmpty)) = true := by
        simp only [List.any_cons, Bool.or_eq_true]
        left
        simp [hkne]
      rw [getLoopF_cons, if_pos hg] at hok
      have hstep : fu + 1 + q.length = (fu + q.length) + 1 := by omega
      rw [List.cons_append, hstep, getLoopF_cons, if_pos hgq]
      have hr : rest.length ≤ fu := by simp at h; omega
      have hner : ∀ s ∈ rest, s ≠ [] := fun s hs => hne s (by simp [hs])
      cases itm with
      | leaf n =>
        dsimp only at hok
        cases hok
      | list xs =>
        dsimp only at hok ⊢
        cases hpi : pyInt k with
        | none =>
          rw [hpi] at hok
          cases hok
        | some i =>
          rw [hpi] at hok
          dsimp only at hok ⊢
          cases hpg : pyListGet xs i with
          | none =>
            rw [hpg] at hok
            cases hok
          | some v =>
            rw [hpg] at hok
            dsimp only at hok ⊢
            exact ih hr hner hok
      | dict d =>
        dsimp only at hok ⊢
        cases hdg : dictGet d k with
        | some v =>
          rw [hdg] at hok
          dsimp only at hok ⊢
          exact ih hr hner hok
        | none =>
          rw [hdg] at hok
          dsimp only at hok ⊢
          cases hf : findDotted d k rest with
          | error e =>
            rw [hf] at hok
            cases hok
          | ok r =>
            obtain ⟨key, v, rest'⟩ := r
            rw [hf] at hok
            dsimp only at hok
            rw [findDotted_append q hf]
            dsimp only
            have hlen := findDotted_ok_len hf
            have hsub := findDotted_ok_suffix hf
            have hner' : ∀ s ∈ rest', s ≠ [] :=
              fun s hs => hner s (hsub.subset hs)
            exact ih (by omega) hner' hok

theorem updLoopF_nil (f : Node → Except String Node) (fuel : Nat) (itm : Node) :
    updLoopF f fuel itm [] = f itm := by
  cases fuel <;> rfl

theorem updLoopF_cons (f : Node → Except String Node) (fuel : Nat) (itm : Node)
    (k : Str) (rest : List Str) :
    updLoopF f (fuel + 1) itm (k :: rest) =
      if (k :: rest).any (fun s => !s.isEmpty) then
        match itm with
        | .leaf _ => .error "AttributeError: object has no attribute keys"
        | .list xs =>
          match pyInt k with
          | none => .error "ValueError: invalid literal for int"
          | some i =>
            match pyIdx xs.length i with
            | none => .error "IndexError: list index out of range"
            | some j =>
              match xs.get? j with
              | none => .error "IndexError: list index out of range"
              | some v =>
                match updLoopF f fuel v rest with
                | .error e => .error e
                | .ok v' => .ok (.list (xs.set j v'))
        | .dict d =>
          match dictGet d k with
          | some v =>
            match updLoopF f fuel v rest with
            | .error e => .error e
            | .ok v' => .ok (.dict (dictSet d k v'))
          | none =>
            match findDotted d k rest with
            | .error e => .error e
            | .ok (key, v, rest') =>
              match updLoopF f fuel v rest' with
              | .error e => .error e
              | .ok v' => .ok (.dict (dictSet d key v'))
      else f itm := rfl

/-- The functional update replays the `get_from_uri` traversal: when it
succeeds, the parent node it located is the one `get_from_uri` resolves,
the updated tree resolves the same path to the updated node, and the
update is exactly `f` applied at that node. -/
theorem updLoopF_spec {f : Node → Except String Node} :
    ∀ {fuel : Nat} {path : List Str} {itm itm' : Node}, path.length ≤ fuel →
      updLoopF f fuel itm path = .ok itm' →
      ∃ m m', getLoopF fuel itm path = .ok m ∧ f m = .ok m' ∧
        getLoopF fuel itm' path = .ok m' := by
  intro fuel
  induction fuel with
  | zero =>
    intro path itm itm' h hu
    have : path = [] := List.eq_nil_of_length_eq_zero (Nat.le_zero.mp h)
    subst this
    rw [updLoopF_nil] at hu
    exact ⟨itm, itm', getLoopF_nil _ _, hu, getLoopF_nil _ _⟩
  | succ fu ih =>
    intro path itm itm' h hu
    cases path with
    | nil =>
      rw [updLoopF_nil] at hu
      exact ⟨itm, itm', getLoopF_nil _ _, hu, getLoopF_nil _ _⟩
    | cons k rest =>
      rw [updLoopF_cons] at hu
      rw [getLoopF_cons, getLoopF_cons]
      by_cases hg : ((k :: rest).any (fun s => !s.isEmpty)) = true
      · rw [if_pos hg] at hu
        rw [if_pos hg, if_pos hg]
        have hr : rest.length ≤ fu := by simp at h; omega
        cases itm with
        | leaf n =>
          dsimp only at hu
          cases hu
        | list xs =>
          dsimp only at hu ⊢
          cases hpi : pyInt k with
          | none =>
            rw [hpi] at hu
            cases hu
          | some i =>
            rw [hpi] at hu
            dsimp only at hu ⊢
            cases hpj : pyIdx xs.length i with
            | none =>
              rw [hpj] at hu
              cases hu
            | some j =>
              rw [hpj] at hu
              dsimp only at hu ⊢
              cases hget : xs.get? j with
              | none =>
                rw [hget] at hu
                cases hu
              | some v =>
                rw [hget] at hu
                dsimp only at hu ⊢
                cases hrec : updLoopF f fu v rest with
                | error e =>
                  rw [hrec] at hu
                  cases hu
                | ok v' =>
                  rw [hrec] at hu
                  dsimp only at hu
                  obtain ⟨m, m', hg1, hf1, hg2⟩ := ih hr hrec
                  cases hu
                  have hjlt : j < xs.length := (List.get?_eq_some.mp hget).1
                  have hplg : pyListGet xs i = some v := by
                    unfold pyListGet
                    rw [hpj]
                    simpa using hget
                  have hplg2 : pyListGet (xs.set j v') i = some v' := by
                    unfold pyListGet
                    rw [List.length_set, hpj]
                    simpa using List.get?_set_eq_of_lt v' hjlt
                  refine ⟨m, m', ?_, hf1, ?_⟩
                  · rw [hplg]
                    dsimp only
                    exact hg1
                  · dsimp only
                    rw [hplg2]
                    dsimp only
                    exact hg2
        | dict d =>
          dsimp only at hu ⊢
          cases hdg : dictGet d k with
          | some v =>
            rw [hdg] at hu
            dsimp only at hu ⊢
            cases hrec : updLoopF f fu v rest with
            | error e =>
              rw [hrec] at hu
              cases hu
            | ok v' =>
              rw [hrec] at hu
              dsimp only at hu
              obtain ⟨m, m', hg1, hf1, hg2⟩ := ih hr hrec
              cases hu
              refine ⟨m, m', hg1, hf1, ?_⟩
              dsimp only
              rw [dictGet_dictSet_self d k v']
              dsimp only
              exact hg2
          | none =>
            rw [hdg] at hu
            dsimp only at hu ⊢
            cases hf : findDotted d k rest with
            | error e =>
              rw [hf] at hu
              cases hu
            | ok r =>
              obtain ⟨key, v, rest'⟩ := r
              rw [hf] at hu
              dsimp only at hu
              have hlen := findDotted_ok_len hf
              simp only [List.length_cons] at hlen
              cases hrec : updLoopF f fu v rest' with
              | error e =>
                rw [hrec] at hu
                cases hu
              | ok v' =>
                rw [hrec] at hu
                dsimp only at hu
                obtain ⟨m, m', hg1, hf1, hg2⟩ := ih (by omega) hrec
                cases hu
                have hkne : k ≠ key := by
                  intro he
                  rw [← he] at hf
                  have := findDotted_ok_get hf
                  rw [hdg] at this
                  cases this
                refine ⟨m, m', ?_, hf1, ?_⟩
                · dsimp only
                  exact hg1
                · dsimp only
                  rw [dictGet_dictSet_ne d key k v' hkne, hdg,
                    findDotted_dictSet v' hf]
                  dsimp only
                  exact hg2
      · rw [if_neg hg] at hu
        rw [if_neg hg, if_neg hg]
        exact ⟨itm, itm', rfl, hu, rfl⟩

theorem getLastD_mem {α : Type} : ∀ (l : List α) (d : α), l ≠ [] → l.getLastD d ∈ l
  | [a], _, _ => by simp [List.getLastD]
  | a :: b :: rest, d, _ => by
    rw [List.getLastD_cons]
    exact List.mem_cons_of_mem a (getLastD_mem (b :: rest) a (by simp))

theorem dropLast_append_getLastD {α : Type} :
    ∀ (l : List α) (d : α), l ≠ [] → l.dropLast ++ [l.getLastD d] = l
  | [_], _, _ => rfl
  | a :: b :: rest, d, _ => by
    have ih := dropLast_append_getLastD (b :: rest) a (by simp)
    rw [List.getLastD_cons]
    show (a :: (b :: rest).dropLast) ++ [(b :: rest).getLastD a] = a :: b :: rest
    rw [List.cons_append, ih]

theorem tag_valid_ne_nil {s : Str} (h : is_tag_valid s = true) : s ≠ [] := by
  intro he
  subst he
  simp [is_tag_valid] at h

theorem pyIdx_lt {len : Nat} {i : Int} {j : Nat} (h : pyIdx len i = some j) : j < len := by
  unfold pyIdx at h
  by_cases h0 : 0 ≤ i
  · rw [if_pos h0] at h
    by_cases h1 : i < (len : Int)
    · rw [if_pos h1] at h
      cases h
      omega
    · rw [if_neg h1] at h
      cases h
  · rw [if_neg h0] at h
    by_cases h1 : 0 ≤ i + (len : Int)
    · rw [if_pos h1] at h
      cases h
      omega
    · rw [if_neg h1] at h
      cases h

/-- After assigning key `k` in a dict, a one-segment lookup of `k`
returns the assigned value. -/
theorem getLoopF_one_dictSet (d : List (Str × Node)) (k : Str) (v : Node)
    (hk : k ≠ []) : getLoopF 1 (.dict (dictSet d k v)) [k] = .ok v := by
  rw [show (1 : Nat) = 0 + 1 from rfl, getLoopF_cons]
  rw [if_pos (by simp [hk])]
  dsimp only
  rw [dictGet_dictSet_self]
  dsimp only
  exact getLoopF_nil 0 v

/-- After assigning index `j` (the Python-normalized index of segment
`k`) in a list, a one-segment lookup of `k` returns the assigned
value. -/
theorem getLoopF_one_listSet (xs : List Node) (k : Str) (v : Node) (i : Int) (j : Nat)
    (hk : k ≠ []) (hpi : pyInt k = some i) (hpj : pyIdx xs.length i = some j) :
    getLoopF 1 (.list (xs.set j v)) [k] = .ok v := by
  rw [show (1 : Nat) = 0 + 1 from rfl, getLoopF_cons]
  rw [if_pos (by simp [hk])]
  dsimp only
  rw [hpi]
  dsimp only
  have : pyListGet (xs.set j v) i = some v := by
    unfold pyListGet
    rw [List.length_set, hpj]
    simpa using List.get?_set_eq_of_lt v (pyIdx_lt hpj)
  rw [this]
  dsimp only
  exact getLoopF_nil 0 v

/-- After deleting key `k` from a dict, a one-segment lookup of `k`
fails (there is nothing left for the dotted-key fallback to pop). -/
theorem getLoopF_one_dictDel (d : List (Str × Node)) (k : Str) (hk : k ≠ []) :
    getLoopF 1 (.dict (dictDel d k)) [k] = .error "IndexError: pop from empty list" := by
  rw [show (1 : Nat) = 0 + 1 from rfl, getLoopF_cons]
  rw [if_pos (by simp [hk])]
  dsimp only
  rw [dictGet_dictDel_self]
  rfl

/-- Central lemma for the set/get round trip: a successful `set_uri`
at a uri made of valid tags makes `get_from_uri` of that uri return
the stored value. -/
theorem set_uri_ok_get {t t' : DictTree} {u : Str} {v : Node}
    (hv : ∀ s ∈ splitDots u, is_tag_valid s = true)
    (hset : set_uri t u v = .ok t') : get_from_uri t' u = .ok v := by
  have hpne : splitDots u ≠ [] := splitDots_ne_nil u
  have hkv : is_tag_valid ((splitDots u).getLastD []) = true :=
    hv _ (getLastD_mem _ _ hpne)
  have hkne : (splitDots u).getLastD [] ≠ [] := tag_valid_ne_nil hkv
  unfold set_uri at hset
  rw [if_neg (by simpa using hkne)] at hset
  cases hur : updRoot t.root (splitDots u).dropLast
      (assign ((splitDots u).getLastD []) v) with
  | error e =>
    rw [hur] at hset
    cases hset
  | ok root' =>
    rw [hur] at hset
    dsimp only at hset
    injection hset with hset2
    subst hset2
    unfold updRoot at hur
    cases hul : updLoop (.dict t.root) (splitDots u).dropLast
        (assign ((splitDots u).getLastD []) v) with
    | error e =>
      rw [hul] at hur
      cases hur
    | ok nroot =>
      rw [hul] at hur
      cases nroot with
      | leaf n => cases hur
      | list xs => cases hur
      | dict dd =>
        dsimp only at hur
        injection hur with hur2
        subst hur2
        unfold updLoop at hul
        obtain ⟨m, m', hg1, hf1, hg2⟩ := updLoopF_spec (le_refl _) hul
        have hdecomp : (splitDots u).dropLast ++ [(splitDots u).getLastD []] =
            splitDots u := dropLast_append_getLastD _ _ hpne
        have hlen : ((splitDots u).dropLast).length + 1 = (splitDots u).length := by
          rw [← hdecomp]
          simp
        have hne : ∀ s ∈ (splitDots u).dropLast, s ≠ [] := by
          intro s hs
          exact tag_valid_ne_nil (hv s ((List.dropLast_prefix _).subset hs))
        have happ := @getLoopF_append [(splitDots u).getLastD []]
          ((splitDots u).dropLast.length) ((splitDots u).dropLast)
          (Node.dict dd) m' (le_refl _) hne hg2
        rw [hdecomp] at happ
        show getLoop (.dict dd) (splitDots u) = .ok v
        unfold getLoop
        rw [← hlen]
        rw [show ((splitDots u).dropLast).length + 1 =
          ((splitDots u).dropLast).length + ([(splitDots u).getLastD []] : List Str).length
            from rfl]
        rw [happ]
        cases m with
        | leaf n => cases hf1
        | dict dm =>
          unfold assign at hf1
          have hm' : m' = .dict (dictSet dm ((splitDots u).getLastD []) v) := by
            cases hf1
            rfl
          subst hm'
          exact getLoopF_one_dictSet dm _ v hkne
        | list xs =>
          unfold assign at hf1
          cases hpi : pyInt ((splitDots u).getLastD []) with
          | none =>
            rw [hpi] at hf1
            cases hf1
          | some i =>
            rw [hpi] at hf1
            dsimp only at hf1
            cases hpj : pyIdx xs.length i with
            | none =>
              rw [hpj] at hf1
              cases hf1
            | some j =>
              rw [hpj] at hf1
              dsimp only at hf1
              have hm' : m' = .list (xs.set j v) := by
                cases hf1
                rfl
              subst hm'
              exact getLoopF_one_listSet xs _ v i j hkne hpi hpj

/-! ## Claim C2 -/

/-- C2: for every valid uri `u` (tag segments joined by dots) and every
value `v`, performing `set_uri u v` on a `DictTree` and then
`get_from_uri u` returns `v`.  "Performing set" is the hypothesis that
`set_uri` returns normally (it raises when an intermediate node of `u`
does not already exist, in which case there is nothing to read back). -/
theorem C2_set_then_get (t t' : DictTree) (u : Str) (v : Node)
    (hu : validTagPath u = true)
    (hset : set_uri t u v = .ok t') : get_from_uri t' u = .ok v := by
  have hv : ∀ s ∈ splitDots u, is_tag_valid s = true := by
    intro s hs
    exact (List.all_eq_true.mp hu) s hs
  exact set_uri_ok_get hv hset

/-- Witness for C2 at `u = "a.b"`, `v = leaf 7`, on a store already
holding an empty mapping at `"a"`. -/
theorem C2_set_then_get_witness :
    validTagPath (str "a.b") = true
    ∧ set_uri ⟨[(str "a", .dict [])], [str "a"]⟩ (str "a.b") (.leaf 7) =
        .ok ⟨[(str "a", .dict [(str "b", .leaf 7)])], [str "a", str "a.b"]⟩
    ∧ get_from_uri ⟨[(str "a", .dict [(str "b", .leaf 7)])], [str "a", str "a.b"]⟩
        (str "a.b") = .ok (.leaf 7) :=
  ⟨rfl, rfl,
    C2_set_then_get ⟨[(str "a", .dict [])], [str "a"]⟩
      ⟨[(str "a", .dict [(str "b", .leaf 7)])], [str "a", str "a.b"]⟩
      (str "a.b") (.leaf 7) rfl rfl⟩

/-! ## Claim C10 -/

/-- C10: at the public interface, the empty uri `""` is an implicit
edge case: `get_from_uri ""` returns the entire root mapping rather
than failing, and `set_uri "" v` and `delete_uri ""` return without
raising and leave the tree and the flat registry unchanged — even
though `is_uri_valid ""` is false. -/
theorem C10_empty_uri (t : DictTree) (v : Node) :
    get_from_uri t [] = .ok (.dict t.root)
    ∧ set_uri t [] v = .ok t
    ∧ delete_uri t [] = .ok t
    ∧ is_uri_valid [] = false :=
  ⟨rfl, rfl, rfl, rfl⟩

/-! ## Claim C1: counterexample -/

/-- C1 fails as stated: on the store `{"ab": 1, "a": 2}` with registry
`["ab", "a"]`, `delete_uri "a"` removes `"ab"` from the flat registry
(the source prunes by the substring test `uri in testuri`) although
`"ab"` is not nested under `"a"` and is still resolvable in the tree.
So `delete` does not remove *exactly* the nested uris from the
registry. -/
theorem C1_counterexample :
    set_uri DictTree.empty (str "ab") (.leaf 1) = .ok ⟨[(str "ab", .leaf 1)], [str "ab"]⟩
    ∧ set_uri ⟨[(str "ab", .leaf 1)], [str "ab"]⟩ (str "a") (.leaf 2) =
        .ok ⟨[(str "ab", .leaf 1), (str "a", .leaf 2)], [str "ab", str "a"]⟩
    ∧ delete_uri ⟨[(str "ab", .leaf 1), (str "a", .leaf 2)], [str "ab", str "a"]⟩
        (str "a") = .ok ⟨[(str "ab", .leaf 1)], []⟩
    ∧ specNestedUnder (str "a") (str "ab") = false
    ∧ get_from_uri ⟨[(str "ab", .leaf 1)], []⟩ (str "ab") = .ok (.leaf 1)
    ∧ contains_uri ⟨[(str "ab", .leaf 1)], []⟩ (str "ab") = false :=
  ⟨rfl, rfl, rfl, rfl, rfl, rfl⟩

/-! ## Lemmas on well-formed stores -/

theorem exOk_iff (x : Except String Node) : x.isOk = true ↔ ∃ v, x = .ok v := by
  cases x <;> simp [Except.isOk, Except.toBool]

theorem splitDots_inj {u w : Str} (h : splitDots u = splitDots w) : u = w := by
  have hu := joinDots_splitDots u
  have hw := joinDots_splitDots w
  rw [← hu, ← hw, h]

/-- A dot-path prefix is in particular a string prefix followed by a
dot (or the whole string), hence a substring. -/
theorem nested_pyIn {u w : Str} (h : specNestedUnder u w = true) : pyIn u w = true := by
  unfold specNestedUnder at h
  obtain ⟨q, hq⟩ := List.isPrefixOf_iff_prefix.mp h
  cases q with
  | nil =>
    rw [List.append_nil] at hq
    have : u = w := splitDots_inj hq
    subst this
    have := pyIn_of_prefix u []
    rwa [List.append_nil] at this
  | cons s ss =>
    have hw : w = u ++ '.' :: joinDots (s :: ss) := by
      rw [← joinDots_splitDots w, ← hq,
        joinDots_append _ _ (splitDots_ne_nil u) (by simp),
        joinDots_splitDots u]
    rw [hw]
    exact pyIn_of_prefix u _

theorem is_tag_valid_no_dot {s : Str} (h : is_tag_valid s = true) :
    s.contains '.' = false := by
  unfold is_tag_valid at h
  by_cases h1 : s.isEmpty
  · rw [if_pos h1] at h
    cases h
  · rw [if_neg h1] at h
    by_cases h2 : s.contains '.'
    · rw [if_pos h2] at h
      cases h
    · exact Bool.not_eq_true _ |>.mp h2

theorem wfEntries_dictGet {d : List (Str × Node)} {x : Str} {v : Node}
    (hwf : wfEntries d = true) (h : dictGet d x = some v) :
    is_tag_valid x = true ∧ wfNode v = true := by
  induction d with
  | nil => cases h
  | cons p rest ih =>
    obtain ⟨k', w⟩ := p
    rw [wfEntries] at hwf
    simp only [Bool.and_eq_true] at hwf
    obtain ⟨⟨hk', hw⟩, hrest⟩ := hwf
    rw [dictGet] at h
    by_cases hk : k' = x
    · rw [if_pos hk] at h
      cases h
      exact ⟨hk ▸ hk', hw⟩
    · rw [if_neg hk] at h
      exact ih hrest h

/-- In a well-formed mapping no key contains a dot, so the dotted-key
fallback always fails. -/
theorem findDotted_wf_error {d : List (Str × Node)} (hwf : wfEntries d = true) :
    ∀ (path : List Str) (k : Str), ∃ e, findDotted d k path = .error e := by
  intro path
  induction path with
  | nil => exact fun k => ⟨_, rfl⟩
  | cons p rest ih =>
    intro k
    have hdot1 : dictGet d (k ++ '.' :: p) = none := by
      cases hc : dictGet d (k ++ '.' :: p) with
      | none => rfl
      | some v =>
        have := is_tag_valid_no_dot (wfEntries_dictGet hwf hc).1
        simp [List.contains_eq_any_beq] at this
    have hdot2 : dictGet d (k ++ '.' :: p ++ ['.']) = none := by
      cases hc : dictGet d (k ++ '.' :: p ++ ['.']) with
      | none => rfl
      | some v =>
        have := is_tag_valid_no_dot (wfEntries_dictGet hwf hc).1
        simp [List.contains_eq_any_beq] at this
    obtain ⟨e, he⟩ := ih (k ++ '.' :: p)
    refine ⟨e, ?_⟩
    rw [findDotted]
    rw [hdot1, hdot2]
    exact he

/-- A successful traversal from a well-formed node lands on a
well-formed node. -/
theorem getLoopF_wf_ok :
    ∀ {fuel : Nat} {itm v : Node} {path : List Str}, wfNode itm = true →
      getLoopF fuel itm path = .ok v → wfNode v = true := by
  intro fuel
  induction fuel with
  | zero =>
    intro itm v path hwf h
    cases path with
    | nil => rw [getLoopF_nil] at h; cases h; exact hwf
    | cons k rest => cases h
  | succ fu ih =>
    intro itm v path hwf h
    cases path with
    | nil => rw [getLoopF_nil] at h; cases h; exact hwf
    | cons k rest =>
      rw [getLoopF_cons] at h
      by_cases hg : ((k :: rest).any (fun s => !s.isEmpty)) = true
      · rw [if_pos hg] at h
        cases itm with
        | leaf n => cases h
        | list xs => rw [wfNode] at hwf; cases hwf
        | dict d =>
          rw [wfNode] at hwf
          dsimp only at h
          cases hdg : dictGet d k with
          | some w =>
            rw [hdg] at h
            exact ih (wfEntries_dictGet hwf hdg).2 h
          | none =>
            rw [hdg] at h
            cases hf : findDotted d k rest with
            | error e => rw [hf] at h; cases h
            | ok r =>
              obtain ⟨key, w, rest'⟩ := r
              rw [hf] at h
              dsimp only at h
              exact ih (wfEntries_dictGet hwf (findDotted_ok_get hf)).2 h
      · rw [if_neg hg] at h
        cases h
        exact hwf

/-- On a well-formed store, the `get_from_uri` traversal of a valid-tag
path is exactly plain descent. -/
theorem getLoopF_pdescend :
    ∀ {fuel : Nat} {itm v : Node} {path : List Str}, wfNode itm = true →
      (∀ s ∈ path, is_tag_valid s = true) → path.length ≤ fuel →
      (getLoopF fuel itm path = .ok v ↔ pdescend itm path = some v) := by
  intro fuel
  induction fuel with
  | zero =>
    intro itm v path hwf hval h
    have : path = [] := List.eq_nil_of_length_eq_zero (Nat.le_zero.mp h)
    subst this
    rw [getLoopF_nil, pdescend]
    constructor
    · intro hh; cases hh; rfl
    · intro hh; cases hh; rfl
  | succ fu ih =>
    intro itm v path hwf hval h
    cases path with
    | nil =>
      rw [getLoopF_nil, pdescend]
      constructor
      · intro hh; cases hh; rfl
      · intro hh; cases hh; rfl
    | cons k rest =>
      have hkv : is_tag_valid k = true := hval k (by simp)
      have hkne : k ≠ [] := tag_valid_ne_nil hkv
      have hg : ((k :: rest).any (fun s => !s.isEmpty)) = true := by simp [hkne]
      rw [getLoopF_cons, if_pos hg]
      have hr : rest.length ≤ fu := by simp at h; omega
      have hvr : ∀ s ∈ rest, is_tag_valid s = true := fun s hs => hval s (by simp [hs])
      cases itm with
      | leaf n =>
        rw [pdescend]
        constructor
        · intro hh; cases hh
        · intro hh; cases hh
      | list xs => rw [wfNode] at hwf; cases hwf
      | dict d =>
        rw [wfNode] at hwf
        dsimp only
        rw [pdescend]
        cases hdg : dictGet d k with
        | some w =>
          dsimp only
          exact ih (wfEntries_dictGet hwf hdg).2 hvr hr
        | none =>
          dsimp only
          obtain ⟨e, he⟩ := findDotted_wf_error hwf rest k
          rw [he]
          constructor
          · intro hh; cases hh
          · intro hh; cases hh

theorem wfEntries_dictSet {d : List (Str × Node)} {k : Str} {v : Node}
    (hwf : wfEntries d = true) (hk : is_tag_valid k = true) (hv : wfNode v = true) :
    wfEntries (dictSet d k v) = true := by
  unfold dictSet
  by_cases hm : (dictGet d k).isSome
  · rw [if_pos hm]
    clear hm
    induction d with
    | nil => rw [dictReplace]; exact hwf
    | cons p rest ih =>
      obtain ⟨k', w⟩ := p
      rw [wfEntries] at hwf
      simp only [Bool.and_eq_true] at hwf
      obtain ⟨⟨hk', hw⟩, hrest⟩ := hwf
      rw [dictReplace]
      by_cases he : k' = k
      · rw [if_pos he, wfEntries]
        simp only [Bool.and_eq_true]
        exact ⟨⟨hk, hv⟩, ih hrest⟩
      · rw [if_neg he, wfEntries]
        simp only [Bool.and_eq_true]
        exact ⟨⟨hk', hw⟩, ih hrest⟩
  · rw [if_neg hm]
    clear hm
    induction d with
    | nil =>
      rw [List.nil_append, wfEntries, wfEntries]
      simp [hk, hv]
    | cons p rest ih =>
      obtain ⟨k', w⟩ := p
      rw [wfEntries] at hwf
      simp only [Bool.and_eq_true] at hwf
      obtain ⟨⟨hk', hw⟩, hrest⟩ := hwf
      rw [List.cons_append, wfEntries]
      simp only [Bool.and_eq_true]
      exact ⟨⟨hk', hw⟩, ih hrest⟩

theorem wfEntries_dictDel {d : List (Str × Node)} {k : Str}
    (hwf : wfEntries d = true) : wfEntries (dictDel d k) = true := by
  induction d with
  | nil => rw [dictDel]; exact hwf
  | cons p rest ih =>
    obtain ⟨k', w⟩ := p
    rw [wfEntries] at hwf
    simp only [Bool.and_eq_true] at hwf
    obtain ⟨⟨hk', hw⟩, hrest⟩ := hwf
    rw [dictDel]
    by_cases he : k' = k
    · rw [if_pos he]
      exact ih hrest
    · rw [if_neg he, wfEntries]
      simp only [Bool.and_eq_true]
      exact ⟨⟨hk', hw⟩, ih hrest⟩

theorem pdescend_nil (itm : Node) : pdescend itm [] = some itm := by
  cases itm <;> rfl

theorem pReplace_nil (itm n : Node) : pReplace itm [] n = some n := by
  cases itm <;> rfl

/-- On a well-formed store, a successful functional update along a
valid-tag path decomposes into plain descent to the located node,
application of `f`, and plain replacement. -/
theorem updLoopF_wf_plain {f : Node → Except String Node} :
    ∀ {fuel : Nat} {path : List Str} {itm itm' : Node}, wfNode itm = true →
      (∀ s ∈ path, is_tag_valid s = true) → path.length ≤ fuel →
      updLoopF f fuel itm path = .ok itm' →
      ∃ m m', pdescend itm path = some m ∧ f m = .ok m' ∧
        pReplace itm path m' = some itm' := by
  intro fuel
  induction fuel with
  | zero =>
    intro path itm itm' hwf hval h hu
    have : path = [] := List.eq_nil_of_length_eq_zero (Nat.le_zero.mp h)
    subst this
    rw [updLoopF_nil] at hu
    exact ⟨itm, itm', pdescend_nil itm, hu, pReplace_nil itm itm'⟩
  | succ fu ih =>
    intro path itm itm' hwf hval h hu
    cases path with
    | nil =>
      rw [updLoopF_nil] at hu
      exact ⟨itm, itm', pdescend_nil itm, hu, pReplace_nil itm itm'⟩
    | cons k rest =>
      have hkv : is_tag_valid k = true := hval k (by simp)
      have hkne : k ≠ [] := tag_valid_ne_nil hkv
      have hg : ((k :: rest).any (fun s => !s.isEmpty)) = true := by simp [hkne]
      rw [updLoopF_cons, if_pos hg] at hu
      have hr : rest.length ≤ fu := by simp at h; omega
      have hvr : ∀ s ∈ rest, is_tag_valid s = true := fun s hs => hval s (by simp [hs])
      cases itm with
      | leaf n =>
        dsimp only at hu
        cases hu
      | list xs => rw [wfNode] at hwf; cases hwf
      | dict d =>
        rw [wfNode] at hwf
        dsimp only at hu
        cases hdg : dictGet d k with
        | some v =>
          rw [hdg] at hu
          dsimp only at hu
          cases hrec : updLoopF f fu v rest with
          | error e =>
            rw [hrec] at hu
            cases hu
          | ok v' =>
            rw [hrec] at hu
            dsimp only at hu
            obtain ⟨m, m', hp1, hf1, hp2⟩ :=
              ih (wfEntries_dictGet hwf hdg).2 hvr hr hrec
            cases hu
            refine ⟨m, m', ?_, hf1, ?_⟩
            · rw [pdescend, hdg]
              dsimp only
              exact hp1
            · rw [pReplace, hdg]
              dsimp only
              rw [hp2]
        | none =>
          rw [hdg] at hu
          dsimp only at hu
          obtain ⟨e, he⟩ := findDotted_wf_error hwf rest k
          rw [he] at hu
          cases hu

/-- Plain replacement of a well-formed node by a well-formed node keeps
the store well-formed. -/
theorem pReplace_wf :
    ∀ {path : List Str} {itm n itm' : Node}, wfNode itm = true →
      (∀ s ∈ path, is_tag_valid s = true) → wfNode n = true →
      pReplace itm path n = some itm' → wfNode itm' = true := by
  intro path
  induction path with
  | nil =>
    intro itm n itm' hwf hval hn h
    rw [pReplace] at h
    cases h
    exact hn
  | cons k rest ih =>
    intro itm n itm' hwf hval hn h
    cases itm with
    | leaf m => rw [pReplace] at h; cases h
    | list xs => rw [pReplace] at h; cases h
    | dict d =>
      rw [pReplace] at h
      cases hdg : dictGet d k with
      | none => rw [hdg] at h; cases h
      | some v =>
        rw [hdg] at h
        dsimp only at h
        cases hrep : pReplace v rest n with
        | none => rw [hrep] at h; cases h
        | some v' =>
          rw [hrep] at h
          dsimp only at h
          cases h
          rw [wfNode] at hwf ⊢
          have hv' : wfNode v' = true :=
            ih (wfEntries_dictGet hwf hdg).2
              (fun s hs => hval s (by simp [hs])) hn hrep
          exact wfEntries_dictSet hwf (hval k (by simp)) hv'

/-- Replacing the node at `path` with a node whose children agree
except at key `k` preserves resolvability of every plainly-descending
path that does not pass below `path ++ [k]`. -/
theorem spine_preserve {k : Str} :
    ∀ {path : List Str} {itm itm' m m' : Node},
      pdescend itm path = some m → sameChildrenExcept k m m' →
      pReplace itm path m' = some itm' →
      ∀ wq : List Str, ¬(path ++ [k] <+: wq) →
        (pdescend itm wq).isSome = true → (pdescend itm' wq).isSome = true := by
  intro path
  induction path with
  | nil =>
    intro itm itm' m m' hpd hsc hrep wq hpre hsome
    rw [pdescend_nil] at hpd
    cases hpd
    rw [pReplace_nil] at hrep
    cases hrep
    obtain ⟨d, d', hd, hd', hch⟩ := hsc
    subst hd
    subst hd'
    cases wq with
    | nil => rw [pdescend_nil]; rfl
    | cons s rest =>
      have hsk : s ≠ k := by
        intro he
        subst he
        exact hpre ⟨rest, rfl⟩
      rw [pdescend] at hsome ⊢
      rw [hch s hsk]
      exact hsome
  | cons a p' ih =>
    intro itm itm' m m' hpd hsc hrep wq hpre hsome
    cases itm with
    | leaf n => rw [pdescend] at hpd; cases hpd
    | list xs => rw [pdescend] at hpd; cases hpd
    | dict d =>
      rw [pdescend] at hpd
      cases hdg : dictGet d a with
      | none => rw [hdg] at hpd; cases hpd
      | some v =>
        rw [hdg] at hpd
        dsimp only at hpd
        rw [pReplace, hdg] at hrep
        dsimp only at hrep
        cases hrep2 : pReplace v p' m' with
        | none => rw [hrep2] at hrep; cases hrep
        | some v' =>
          rw [hrep2] at hrep
          dsimp only at hrep
          cases hrep
          cases wq with
          | nil => rw [pdescend_nil]; rfl
          | cons s rest =>
            rw [pdescend] at hsome ⊢
            by_cases hsa : s = a
            · subst hsa
              rw [hdg] at hsome
              rw [dictGet_dictSet_self]
              dsimp only at hsome ⊢
              have hpre' : ¬(p' ++ [k] <+: rest) := by
                intro hc
                exact hpre (by simpa using hc)
              exact ih hpd hsc hrep2 rest hpre' hsome
            · rw [dictGet_dictSet_ne d a s v' hsa]
              exact hsome

theorem pdescend_wf :
    ∀ {path : List Str} {itm v : Node}, wfNode itm = true →
      pdescend itm path = some v → wfNode v = true := by
  intro path
  induction path with
  | nil =>
    intro itm v hwf h
    rw [pdescend_nil] at h
    cases h
    exact hwf
  | cons k rest ih =>
    intro itm v hwf h
    cases itm with
    | leaf n => rw [pdescend] at h; cases h
    | list xs => rw [wfNode] at hwf; cases hwf
    | dict d =>
      rw [pdescend] at h
      cases hdg : dictGet d k with
      | none => rw [hdg] at h; cases h
      | some w =>
        rw [hdg] at h
        dsimp only at h
        rw [wfNode] at hwf
        exact ih (wfEntries_dictGet hwf hdg).2 h

/-- Helper carrying the full analysis of a successful `delete_uri` on a
well-formed store: nested uris stop resolving, non-nested valid uris
keep resolving, the registry is pruned by substring containment, every
nested registered uri is pruned, and the store stays well-formed. -/
theorem delete_uri_wf_parts (t t' : DictTree) (u : Str)
    (hwf : wfEntries t.root = true) (hu : validTagPath u = true)
    (hdel : delete_uri t u = .ok t') :
    (∀ w, specNestedUnder u w = true → (get_from_uri t' w).isOk = false)
    ∧ (∀ w, validTagPath w = true → specNestedUnder u w = false →
        (get_from_uri t w).isOk = true → (get_from_uri t' w).isOk = true)
    ∧ t'.all_uris = t.all_uris.filter (fun w => ¬(pyIn u w = true))
    ∧ (∀ w ∈ t.all_uris, specNestedUnder u w = true → ¬(w ∈ t'.all_uris))
    ∧ wfEntries t'.root = true := by
  have huv : ∀ s ∈ splitDots u, is_tag_valid s = true := by
    intro s hs
    exact (List.all_eq_true.mp hu) s hs
  have hpne : splitDots u ≠ [] := splitDots_ne_nil u
  have hkv : is_tag_valid ((splitDots u).getLastD []) = true :=
    huv _ (getLastD_mem _ _ hpne)
  have hkne : (splitDots u).getLastD [] ≠ [] := tag_valid_ne_nil hkv
  have hdecomp : (splitDots u).dropLast ++ [(splitDots u).getLastD []] =
      splitDots u := dropLast_append_getLastD _ _ hpne
  have hpv : ∀ s ∈ (splitDots u).dropLast, is_tag_valid s = true := by
    intro s hs
    exact huv s ((List.dropLast_prefix _).subset hs)
  have hpnn : ∀ s ∈ (splitDots u).dropLast, s ≠ [] :=
    fun s hs => tag_valid_ne_nil (hpv s hs)
  unfold delete_uri at hdel
  rw [if_neg (by simpa using hkne)] at hdel
  cases hur : updRoot t.root (splitDots u).dropLast
      (delAssign ((splitDots u).getLastD [])) with
  | error e =>
    rw [hur] at hdel
    cases hdel
  | ok root' =>
    rw [hur] at hdel
    dsimp only at hdel
    injection hdel with hdel2
    subst hdel2
    unfold updRoot at hur
    cases hul : updLoop (.dict t.root) (splitDots u).dropLast
        (delAssign ((splitDots u).getLastD [])) with
    | error e =>
      rw [hul] at hur
      cases hur
    | ok nroot =>
      rw [hul] at hur
      cases nroot with
      | leaf n => cases hur
      | list xs => cases hur
      | dict dd =>
        dsimp only at hur
        injection hur with hur2
        subst hur2
        unfold updLoop at hul
        -- general correspondence (for part (a)/(b))
        obtain ⟨m0, m0', hg1, hf1, hg2⟩ := updLoopF_spec (le_refl _) hul
        -- the located parent is a mapping containing the last tag
        have hm0 : ∃ dm, m0 = .dict dm ∧
            (dictGet dm ((splitDots u).getLastD [])).isSome = true ∧
            m0' = .dict (dictDel dm ((splitDots u).getLastD [])) := by
          cases m0 with
          | leaf n => rw [delAssign] at hf1; cases hf1
          | list xs => rw [delAssign] at hf1; cases hf1
          | dict dm =>
            rw [delAssign] at hf1
            by_cases hs : (dictGet dm ((splitDots u).getLastD [])).isSome
            · rw [if_pos hs] at hf1
              injection hf1 with hf2
              exact ⟨dm, rfl, hs, hf2.symm⟩
            · rw [if_neg hs] at hf1
              cases hf1
        obtain ⟨dm, hm0d, hdmk, hm0'⟩ := hm0
        have hwfm0 : wfNode m0 = true := getLoopF_wf_ok (by rw [wfNode]; exact hwf) hg1
        have hwfdm : wfEntries dm = true := by
          rw [hm0d, wfNode] at hwfm0
          exact hwfm0
        have hwfdel : wfEntries (dictDel dm ((splitDots u).getLastD [])) = true :=
          wfEntries_dictDel hwfdm
        refine ⟨?_, ?_, rfl, ?_, ?_⟩
        · -- (a)/(b): u and everything nested under it no longer resolves
          intro w hnest
          unfold specNestedUnder at hnest
          obtain ⟨q, hq⟩ := List.isPrefixOf_iff_prefix.mp hnest
          show (getLoop (.dict dd) (splitDots w)).isOk = false
          unfold getLoop
          have hlenw : (splitDots w).length =
              (splitDots u).dropLast.length + (((splitDots u).getLastD []) :: q).length := by
            rw [← hq, ← hdecomp]
            simp
          have happ := @getLoopF_append (((splitDots u).getLastD []) :: q)
            ((splitDots u).dropLast.length) ((splitDots u).dropLast)
            (Node.dict dd) m0' (le_refl _) hpnn hg2
          have hqpath : (splitDots u).dropLast ++ (((splitDots u).getLastD []) :: q) =
              splitDots w := by
            rw [← hq, ← hdecomp]
            simp
          rw [hqpath] at happ
          rw [hlenw, happ, hm0']
          have hkE : ((splitDots u).getLastD []).isEmpty = false := by
            cases hc : ((splitDots u).getLastD []).isEmpty
            · rfl
            · exact absurd (List.isEmpty_iff.mp hc) hkne
          rw [show (((splitDots u).getLastD []) :: q).length = q.length + 1 by simp,
            getLoopF_cons]
          rw [if_pos (by
            rw [List.any_cons]
            have hb : (!((splitDots u).getLastD []).isEmpty) = true := by
              rw [hkE]
              rfl
            rw [hb]
            rfl)]
          dsimp only
          rw [dictGet_dictDel_self]
          obtain ⟨e, he⟩ := findDotted_wf_error hwfdel q ((splitDots u).getLastD [])
          rw [he]
          rfl
        · -- (c): non-nested valid uris keep resolving
          intro w hwv hnn hok
          obtain ⟨m1, m1', hpd, hfd, hrep⟩ :=
            updLoopF_wf_plain (by rw [wfNode]; exact hwf) hpv (le_refl _) hul
          have hm1 : ∃ dm1, m1 = .dict dm1 ∧
              m1' = .dict (dictDel dm1 ((splitDots u).getLastD [])) := by
            cases m1 with
            | leaf n => rw [delAssign] at hfd; cases hfd
            | list xs => rw [delAssign] at hfd; cases hfd
            | dict dm1 =>
              rw [delAssign] at hfd
              by_cases hs : (dictGet dm1 ((splitDots u).getLastD [])).isSome
              · rw [if_pos hs] at hfd
                injection hfd with hfd2
                exact ⟨dm1, rfl, hfd2.symm⟩
              · rw [if_neg hs] at hfd
                cases hfd
          obtain ⟨dm1, hm1d, hm1'⟩ := hm1
          have hsc : sameChildrenExcept ((splitDots u).getLastD []) m1 m1' := by
            refine ⟨dm1, dictDel dm1 ((splitDots u).getLastD []), hm1d, hm1', ?_⟩
            intro s hs
            exact dictGet_dictDel_ne dm1 _ s hs
          have hwv' : ∀ s ∈ splitDots w, is_tag_valid s = true := by
            intro s hs
            exact (List.all_eq_true.mp hwv) s hs
          obtain ⟨v0, hv0⟩ := (exOk_iff _).mp hok
          have hpdw : pdescend (.dict t.root) (splitDots w) = some v0 :=
            (getLoopF_pdescend (by rw [wfNode]; exact hwf) hwv' (le_refl _)).mp hv0
          have hpre : ¬((splitDots u).dropLast ++ [(splitDots u).getLastD []] <+:
              splitDots w) := by
            rw [hdecomp]
            intro hc
            rw [show specNestedUnder u w =
              (splitDots u).isPrefixOf (splitDots w) from rfl] at hnn
            rw [List.isPrefixOf_iff_prefix.mpr hc] at hnn
            cases hnn
          have hsome' := spine_preserve hpd hsc hrep (splitDots w) hpre
            (by rw [hpdw]; rfl)
          obtain ⟨v1, hv1⟩ := Option.isSome_iff_exists.mp hsome'
          have hwfroot' : wfNode (.dict dd) = true := by
            refine pReplace_wf (by rw [wfNode]; exact hwf) hpv ?_ hrep
            rw [hm1', wfNode]
            have hwfm1 : wfNode m1 = true :=
              pdescend_wf (by rw [wfNode]; exact hwf) hpd
            rw [hm1d, wfNode] at hwfm1
            exact wfEntries_dictDel hwfm1
          have := (getLoopF_pdescend hwfroot' hwv' (le_refl _)).mpr hv1
          show (getLoop (.dict dd) (splitDots w)).isOk = true
          unfold getLoop
          rw [this]
          rfl
        · -- nested registered uris are pruned (substring ⊇ nesting)
          intro w hwmem hnest hmem'
          have hin : pyIn u w = true := nested_pyIn hnest
          have := List.mem_filter.mp hmem'
          rw [hin] at this
          simpa using this.2
        · -- the store stays well-formed
          obtain ⟨m1, m1', hpd, hfd, hrep⟩ :=
            updLoopF_wf_plain (by rw [wfNode]; exact hwf) hpv (le_refl _) hul
          have hm1 : ∃ dm1, m1 = .dict dm1 ∧
              m1' = .dict (dictDel dm1 ((splitDots u).getLastD [])) := by
            cases m1 with
            | leaf n => rw [delAssign] at hfd; cases hfd
            | list xs => rw [delAssign] at hfd; cases hfd
            | dict dm1 =>
              rw [delAssign] at hfd
              by_cases hs : (dictGet dm1 ((splitDots u).getLastD [])).isSome
              · rw [if_pos hs] at hfd
                injection hfd with hfd2
                exact ⟨dm1, rfl, hfd2.symm⟩
              · rw [if_neg hs] at hfd
                cases hfd
          obtain ⟨dm1, hm1d, hm1'⟩ := hm1
          have hwfroot' : wfNode (.dict dd) = true := by
            refine pReplace_wf (by rw [wfNode]; exact hwf) hpv ?_ hrep
            rw [hm1', wfNode]
            have hwfm1 : wfNode m1 = true :=
              pdescend_wf (by rw [wfNode]; exact hwf) hpd
            rw [hm1d, wfNode] at hwfm1
            exact wfEntries_dictDel hwfm1
          rw [wfNode] at hwfroot'
          exact hwfroot'

/-! ## Claim C1: amended theorem -/

/-- C1 amended: on stores whose interior nodes are well-formed ordered
mappings, for every uri `u` of valid tags, a successful `delete_uri u`
removes exactly the subtree at `u` from the store — a subsequent
`get_from_uri` of `u` or of any uri nested under `u` fails, and every
valid non-nested uri keeps resolving — while the flat registry
`_all_uris` is pruned by *substring* containment of `u`: every nested
registered uri is removed, but so is any other registered uri that
contains `u` as a substring (this last point is where the original
claim fails; see the counterexample). -/
theorem C1_delete_amended (t t' : DictTree) (u : Str)
    (hwf : wfEntries t.root = true) (hu : validTagPath u = true)
    (hdel : delete_uri t u = .ok t') :
    (∀ w, specNestedUnder u w = true → (get_from_uri t' w).isOk = false)
    ∧ (∀ w, validTagPath w = true → specNestedUnder u w = false →
        (get_from_uri t w).isOk = true → (get_from_uri t' w).isOk = true)
    ∧ t'.all_uris = t.all_uris.filter (fun w => ¬(pyIn u w = true))
    ∧ (∀ w ∈ t.all_uris, specNestedUnder u w = true → ¬(w ∈ t'.all_uris)) := by
  obtain ⟨h1, h2, h3, h4, -⟩ := delete_uri_wf_parts t t' u hwf hu hdel
  exact ⟨h1, h2, h3, h4⟩

/-- Witness for the amended C1: deleting `"a.b"` from the store
`{"a": {"b": 1}, "c": 2}` with registry `["a", "a.b", "c"]`. -/
theorem C1_delete_amended_witness :
    wfEntries [(str "a", Node.dict [(str "b", Node.leaf 1)]), (str "c", Node.leaf 2)] = true
    ∧ validTagPath (str "a.b") = true
    ∧ delete_uri ⟨[(str "a", .dict [(str "b", .leaf 1)]), (str "c", .leaf 2)],
        [str "a", str "a.b", str "c"]⟩ (str "a.b") =
        .ok ⟨[(str "a", .dict []), (str "c", .leaf 2)], [str "a", str "c"]⟩
    ∧ (get_from_uri ⟨[(str "a", .dict []), (str "c", .leaf 2)], [str "a", str "c"]⟩
        (str "a.b")).isOk = false
    ∧ (get_from_uri ⟨[(str "a", .dict []), (str "c", .leaf 2)], [str "a", str "c"]⟩
        (str "c")).isOk = true := by
  refine ⟨rfl, rfl, rfl, ?_, ?_⟩
  · exact (C1_delete_amended
      ⟨[(str "a", .dict [(str "b", .leaf 1)]), (str "c", .leaf 2)],
        [str "a", str "a.b", str "c"]⟩
      ⟨[(str "a", .dict []), (str "c", .leaf 2)], [str "a", str "c"]⟩
      (str "a.b") rfl rfl rfl).1 (str "a.b") rfl
  · exact (C1_delete_amended
      ⟨[(str "a", .dict [(str "b", .leaf 1)]), (str "c", .leaf 2)],
        [str "a", str "a.b", str "c"]⟩
      ⟨[(str "a", .dict []), (str "c", .leaf 2)], [str "a", str "c"]⟩
      (str "a.b") rfl rfl rfl).2.1 (str "c") rfl rfl rfl

/-! ## Claim C3 -/

theorem regAdd_mem {reg : List Str} {u w : Str} (h : w ∈ regAdd reg u) :
    w ∈ reg ∨ w = u := by
  unfold regAdd at h
  by_cases hm : u ∈ reg
  · rw [if_pos hm] at h
    exact Or.inl h
  · rw [if_neg hm] at h
    rcases List.mem_append.mp h with h1 | h1
    · exact Or.inl h1
    · exact Or.inr (by simpa using h1)

/-- Helper carrying the analysis of a successful `set_uri` on a
well-formed store with a well-formed value: the registry gains exactly
the written uri, the store stays well-formed, and every valid uri not
nested under the written one keeps resolving. -/
theorem set_uri_wf_parts (t t' : DictTree) (u : Str) (v : Node)
    (hwf : wfEntries t.root = true) (hu : validTagPath u = true)
    (hv : wfNode v = true) (hset : set_uri t u v = .ok t') :
    t'.all_uris = regAdd t.all_uris u
    ∧ wfEntries t'.root = true
    ∧ (∀ w, validTagPath w = true → specNestedUnder u w = false →
        (get_from_uri t w).isOk = true → (get_from_uri t' w).isOk = true) := by
  have huv : ∀ s ∈ splitDots u, is_tag_valid s = true := by
    intro s hs
    exact (List.all_eq_true.mp hu) s hs
  have hpne : splitDots u ≠ [] := splitDots_ne_nil u
  have hkv : is_tag_valid ((splitDots u).getLastD []) = true :=
    huv _ (getLastD_mem _ _ hpne)
  have hkne : (splitDots u).getLastD [] ≠ [] := tag_valid_ne_nil hkv
  have hdecomp : (splitDots u).dropLast ++ [(splitDots u).getLastD []] =
      splitDots u := dropLast_append_getLastD _ _ hpne
  have hpv : ∀ s ∈ (splitDots u).dropLast, is_tag_valid s = true := by
    intro s hs
    exact huv s ((List.dropLast_prefix _).subset hs)
  unfold set_uri at hset
  rw [if_neg (by simpa using hkne)] at hset
  cases hur : updRoot t.root (splitDots u).dropLast
      (assign ((splitDots u).getLastD []) v) with
  | error e =>
    rw [hur] at hset
    cases hset
  | ok root' =>
    rw [hur] at hset
    dsimp only at hset
    injection hset with hset2
    subst hset2
    unfold updRoot at hur
    cases hul : updLoop (.dict t.root) (splitDots u).dropLast
        (assign ((splitDots u).getLastD []) v) with
    | error e =>
      rw [hul] at hur
      cases hur
    | ok nroot =>
      rw [hul] at hur
      cases nroot with
      | leaf n => cases hur
      | list xs => cases hur
      | dict dd =>
        dsimp only at hur
        injection hur with hur2
        subst hur2
        unfold updLoop at hul
        obtain ⟨m1, m1', hpd, hfd, hrep⟩ :=
          updLoopF_wf_plain (by rw [wfNode]; exact hwf) hpv (le_refl _) hul
        have hwfm1 : wfNode m1 = true :=
          pdescend_wf (by rw [wfNode]; exact hwf) hpd
        have hm1 : ∃ dm1, m1 = .dict dm1 ∧
            m1' = .dict (dictSet dm1 ((splitDots u).getLastD []) v) := by
          cases m1 with
          | leaf n => rw [assign] at hfd; cases hfd
          | list xs => rw [wfNode] at hwfm1; cases hwfm1
          | dict dm1 =>
            rw [assign] at hfd
            injection hfd with hfd2
            exact ⟨dm1, rfl, hfd2.symm⟩
        obtain ⟨dm1, hm1d, hm1'⟩ := hm1
        have hwfdm1 : wfEntries dm1 = true := by
          rw [hm1d, wfNode] at hwfm1
          exact hwfm1
        have hwfm1' : wfNode m1' = true := by
          rw [hm1', wfNode]
          exact wfEntries_dictSet hwfdm1 hkv hv
        have hwfroot' : wfNode (.dict dd) = true :=
          pReplace_wf (by rw [wfNode]; exact hwf) hpv hwfm1' hrep
        refine ⟨rfl, by rw [wfNode] at hwfroot'; exact hwfroot', ?_⟩
        intro w hwv hnn hok
        have hsc : sameChildrenExcept ((splitDots u).getLastD []) m1 m1' := by
          refine ⟨dm1, dictSet dm1 ((splitDots u).getLastD []) v, hm1d, hm1', ?_⟩
          intro s hs
          exact dictGet_dictSet_ne dm1 _ s v hs
        have hwv' : ∀ s ∈ splitDots w, is_tag_valid s = true := by
          intro s hs
          exact (List.all_eq_true.mp hwv) s hs
        obtain ⟨v0, hv0⟩ := (exOk_iff _).mp hok
        have hpdw : pdescend (.dict t.root) (splitDots w) = some v0 :=
          (getLoopF_pdescend (by rw [wfNode]; exact hwf) hwv' (le_refl _)).mp hv0
        have hpre : ¬((splitDots u).dropLast ++ [(splitDots u).getLastD []] <+:
            splitDots w) := by
          rw [hdecomp]
          intro hc
          rw [show specNestedUnder u w =
            (splitDots u).isPrefixOf (splitDots w) from rfl] at hnn
          rw [List.isPrefixOf_iff_prefix.mpr hc] at hnn
          cases hnn
        have hsome' := spine_preserve hpd hsc hrep (splitDots w) hpre
          (by rw [hpdw]; rfl)
        obtain ⟨v1, hv1⟩ := Option.isSome_iff_exists.mp hsome'
        have := (getLoopF_pdescend hwfroot' hwv' (le_refl _)).mpr hv1
        show (getLoop (.dict dd) (splitDots w)).isOk = true
        unfold getLoop
        rw [this]
        rfl

/-- One step of the registry invariant. -/
theorem goodOp_inv_step (t : DictTree) (op : StoreOp)
    (hwf : wfEntries t.root = true)
    (hreg : ∀ w ∈ t.all_uris, validTagPath w = true ∧
      (get_from_uri t w).isOk = true)
    (hop : goodOp t op) :
    wfEntries (applyOp t op).root = true ∧
      ∀ w ∈ (applyOp t op).all_uris, validTagPath w = true ∧
        (get_from_uri (applyOp t op) w).isOk = true := by
  cases op with
  | sets u v =>
    obtain ⟨hu, hv, hnest⟩ := hop
    unfold applyOp
    dsimp only
    cases hs : set_uri t u v with
    | error e =>
      dsimp only
      exact ⟨hwf, hreg⟩
    | ok t' =>
      dsimp only
      obtain ⟨hra, hwf', hpres⟩ := set_uri_wf_parts t t' u v hwf hu hv hs
      refine ⟨hwf', ?_⟩
      intro w hwmem
      rw [hra] at hwmem
      rcases regAdd_mem hwmem with hold | hnew
      · obtain ⟨hwv, hwok⟩ := hreg w hold
        refine ⟨hwv, ?_⟩
        by_cases hn : specNestedUnder u w = true
        · have hwu : w = u := hnest w hold hn
          subst hwu
          rw [(exOk_iff _).mpr ⟨v, set_uri_ok_get
            (fun s hs2 => (List.all_eq_true.mp hu) s hs2) hs⟩]
        · exact hpres w hwv (Bool.not_eq_true _ |>.mp hn) hwok
      · subst hnew
        refine ⟨hu, ?_⟩
        rw [(exOk_iff _).mpr ⟨v, set_uri_ok_get
          (fun s hs2 => (List.all_eq_true.mp hu) s hs2) hs⟩]
  | dels u =>
    have hu : validTagPath u = true := hop
    unfold applyOp
    dsimp only
    cases hs : delete_uri t u with
    | error e =>
      dsimp only
      exact ⟨hwf, hreg⟩
    | ok t' =>
      dsimp only
      obtain ⟨-, hpres, hfilter, -, hwf'⟩ := delete_uri_wf_parts t t' u hwf hu hs
      refine ⟨hwf', ?_⟩
      intro w hwmem
      rw [hfilter] at hwmem
      obtain ⟨hold, hpred⟩ := List.mem_filter.mp hwmem
      obtain ⟨hwv, hwok⟩ := hreg w hold
      have hnn : specNestedUnder u w = false := by
        cases hc : specNestedUnder u w with
        | false => rfl
        | true =>
          have := nested_pyIn hc
          rw [this] at hpred
          simp at hpred
      exact ⟨hwv, hpres w hwv hnn hwok⟩

/-- The full invariant over a sequence of operations. -/
theorem goodSeq_inv (ops : List StoreOp) :
    ∀ t : DictTree, wfEntries t.root = true →
      (∀ w ∈ t.all_uris, validTagPath w = true ∧ (get_from_uri t w).isOk = true) →
      goodSeq t ops →
      wfEntries (ops.foldl applyOp t).root = true ∧
        ∀ w ∈ (ops.foldl applyOp t).all_uris, validTagPath w = true ∧
          (get_from_uri (ops.foldl applyOp t) w).isOk = true := by
  induction ops with
  | nil => exact fun t hwf hreg _ => ⟨hwf, hreg⟩
  | cons op rest ih =>
    intro t hwf hreg hg
    obtain ⟨hop, hgr⟩ := hg
    obtain ⟨hwf', hreg'⟩ := goodOp_inv_step t op hwf hreg hop
    exact ih (applyOp t op) hwf' hreg' hgr

/-- C3 amended: after any sequence of `set_uri`/`delete_uri`
operations, starting from an empty store, in which every set writes a
valid-tag uri with a well-formed (mapping/leaf) value and never
overwrites a proper dot-path ancestor of a registered uri, and every
delete uses a valid-tag uri, every uri in the flat registry resolves
via `get_from_uri`.  (Without the no-ancestor-overwrite restriction
the invariant is false — see the counterexample, where overwriting the
interior node `"a"` leaves the registered `"a.b"` unresolvable.) -/
theorem C3_registry_amended (ops : List StoreOp)
    (h : goodSeq DictTree.empty ops) :
    ∀ w ∈ (ops.foldl applyOp DictTree.empty).all_uris,
      (get_from_uri (ops.foldl applyOp DictTree.empty) w).isOk = true := by
  have := goodSeq_inv ops DictTree.empty rfl (by intro w hw; cases hw) h
  intro w hw
  exact (this.2 w hw).2

/-- C3 fails as stated: writing `"a"` as a mapping, then `"a.b"`,
then overwriting `"a"` with a leaf leaves `"a.b"` in the registry
although `get_from_uri "a.b"` now raises. -/
theorem C3_counterexample :
    ([StoreOp.sets (str "a") (.dict []), .sets (str "a.b") (.leaf 2),
        .sets (str "a") (.leaf 5)].foldl applyOp DictTree.empty).all_uris
      = [str "a", str "a.b"]
    ∧ (get_from_uri
        ([StoreOp.sets (str "a") (.dict []), .sets (str "a.b") (.leaf 2),
          .sets (str "a") (.leaf 5)].foldl applyOp DictTree.empty)
        (str "a.b")).isOk = false :=
  ⟨rfl, rfl⟩

/-- Witness for the amended C3 on the one-operation sequence
`[set "a" (leaf 1)]`. -/
theorem C3_registry_amended_witness :
    goodSeq DictTree.empty [StoreOp.sets (str "a") (.leaf 1)]
    ∧ ([StoreOp.sets (str "a") (.leaf 1)].foldl applyOp DictTree.empty).all_uris
        = [str "a"]
    ∧ (get_from_uri
        ([StoreOp.sets (str "a") (.leaf 1)].foldl applyOp DictTree.empty)
        (str "a")).isOk = true := by
  have hgs : goodSeq DictTree.empty [StoreOp.sets (str "a") (.leaf 1)] :=
    ⟨⟨rfl, rfl, fun w hw => absurd hw (by simp [DictTree.empty])⟩, trivial⟩
  exact ⟨hgs, rfl,
    C3_registry_amended [StoreOp.sets (str "a") (.leaf 1)] hgs (str "a")
      (List.mem_singleton.mpr rfl)⟩

/-! ## Claim C5 -/

/-- C5: a Workflow whose two enabled operations form a genuine
dependency cycle (each one's sole workflow-item input references the
other's output) terminates plan building — the very first round finds
no ready operation, so the loop exits with the same answer for every
fuel bound — schedules neither operation (the stage list is empty),
and returns a non-empty diagnostic for each of the two blocked inputs,
naming the unresolved uri. -/
theorem C5_cycle_terminates (a b na nb oa ob : Str)
    (insA outsA insB outsB : List Str)
    (runA runB : Except String (List (Str × Node)))
    (hkeys : a ++ '.' :: inputs_tag ++ '.' :: na ≠ b ++ '.' :: inputs_tag ++ '.' :: nb) :
    (∀ fuel : Nat,
      stackLoop ⟨[(a, ⟨⟨[(na, ⟨.workflow_item, b ++ '.' :: outputs_tag ++ '.' :: ob⟩)],
                    insA, outsA, runA⟩, true⟩),
                  (b, ⟨⟨[(nb, ⟨.workflow_item, a ++ '.' :: outputs_tag ++ '.' :: oa⟩)],
                    insB, outsB, runB⟩, true⟩)]⟩ (fuel + 1) [] [] [] =
        some ([],
          [(a ++ '.' :: inputs_tag ++ '.' :: na,
            str "Operation input " ++ na ++ str " (="
              ++ (b ++ '.' :: outputs_tag ++ '.' :: ob)
              ++ str ") not found in valid Workflow input list: " ++ pyReprList []),
           (b ++ '.' :: inputs_tag ++ '.' :: nb,
            str "Operation input " ++ nb ++ str " (="
              ++ (a ++ '.' :: outputs_tag ++ '.' :: oa)
              ++ str ") not found in valid Workflow input list: " ++ pyReprList [])]))
    ∧ execution_stack ⟨[(a, ⟨⟨[(na, ⟨.workflow_item, b ++ '.' :: outputs_tag ++ '.' :: ob⟩)],
                    insA, outsA, runA⟩, true⟩),
                  (b, ⟨⟨[(nb, ⟨.workflow_item, a ++ '.' :: outputs_tag ++ '.' :: oa⟩)],
                    insB, outsB, runB⟩, true⟩)]⟩ =
        some ([],
          [(a ++ '.' :: inputs_tag ++ '.' :: na,
            str "Operation input " ++ na ++ str " (="
              ++ (b ++ '.' :: outputs_tag ++ '.' :: ob)
              ++ str ") not found in valid Workflow input list: " ++ pyReprList []),
           (b ++ '.' :: inputs_tag ++ '.' :: nb,
            str "Operation input " ++ nb ++ str " (="
              ++ (a ++ '.' :: outputs_tag ++ '.' :: oa)
              ++ str ") not found in valid Workflow input list: " ++ pyReprList [])])
    ∧ (str "Operation input " ++ na ++ str " (="
        ++ (b ++ '.' :: outputs_tag ++ '.' :: ob)
        ++ str ") not found in valid Workflow input list: " ++ pyReprList []) ≠ []
    ∧ (str "Operation input " ++ nb ++ str " (="
        ++ (a ++ '.' :: outputs_tag ++ '.' :: oa)
        ++ str ") not found in valid Workflow input list: " ++ pyReprList []) ≠ [] := by
  have hmain : ∀ fuel : Nat,
      stackLoop ⟨[(a, ⟨⟨[(na, ⟨.workflow_item, b ++ '.' :: outputs_tag ++ '.' :: ob⟩)],
                    insA, outsA, runA⟩, true⟩),
                  (b, ⟨⟨[(nb, ⟨.workflow_item, a ++ '.' :: outputs_tag ++ '.' :: oa⟩)],
                    insB, outsB, runB⟩, true⟩)]⟩ (fuel + 1) [] [] [] =
        some ([],
          [(a ++ '.' :: inputs_tag ++ '.' :: na,
            str "Operation input " ++ na ++ str " (="
              ++ (b ++ '.' :: outputs_tag ++ '.' :: ob)
              ++ str ") not found in valid Workflow input list: " ++ pyReprList []),
           (b ++ '.' :: inputs_tag ++ '.' :: nb,
            str "Operation input " ++ nb ++ str " (="
              ++ (a ++ '.' :: outputs_tag ++ '.' :: oa)
              ++ str ") not found in valid Workflow input list: " ++ pyReprList [])]) := by
    intro fuel
    simp only [stackLoop, stack_size, List.map_nil, List.sum_nil, List.length_cons,
      List.length_nil, roundStep, List.foldl_cons, List.foldl_nil, stack_contains,
      List.any_nil, is_op_ready, sdictUpdate, sdictSet, List.all_cons, List.all_nil,
      Bool.not_true, Bool.false_eq_true, not_false_eq_true, List.not_mem_nil,
      and_true, if_true, List.nil_append, hkeys]
    simpa using hkeys
  refine ⟨hmain, hmain 2, by simp [str], by simp [str]⟩

/-- Witness for C5 with tags `A`, `B`, inputs `na`/`nb`, outputs
`oa`/`ob`. -/
theorem C5_cycle_terminates_witness :
    execution_stack ⟨[(str "A", ⟨⟨[(str "na",
          ⟨.workflow_item, str "B" ++ '.' :: outputs_tag ++ '.' :: str "ob"⟩)],
        [str "na"], [str "oa"], .ok []⟩, true⟩),
      (str "B", ⟨⟨[(str "nb",
          ⟨.workflow_item, str "A" ++ '.' :: outputs_tag ++ '.' :: str "oa"⟩)],
        [str "nb"], [str "ob"], .ok []⟩, true⟩)]⟩ =
      some ([],
        [(str "A" ++ '.' :: inputs_tag ++ '.' :: str "na",
          str "Operation input " ++ str "na" ++ str " (="
            ++ (str "B" ++ '.' :: outputs_tag ++ '.' :: str "ob")
            ++ str ") not found in valid Workflow input list: " ++ pyReprList []),
         (str "B" ++ '.' :: inputs_tag ++ '.' :: str "nb",
          str "Operation input " ++ str "nb" ++ str " (="
            ++ (str "A" ++ '.' :: outputs_tag ++ '.' :: str "oa")
            ++ str ") not found in valid Workflow input list: " ++ pyReprList [])]) :=
  (C5_cycle_terminates (str "A") (str "B") (str "na") (str "nb") (str "oa") (str "ob")
    [str "na"] [str "oa"] [str "nb"] [str "ob"] (.ok []) (.ok [])
    (by decide)).2.1

/-! ## Claim C4 -/

/-- C4 fails as stated: with `A` disabled and `B` referencing
`A.outputs.x`, the returned diagnostics hold exactly one entry — the
one for `B`'s blocked input — and no entry at all for `A`; the
`{op_tag: 'Operation is disabled'}` record that the source builds for a
disabled operation is never merged into `diagnostics`. -/
theorem C4_counterexample :
    (execution_stack ⟨[(str "A", ⟨⟨[], [], [str "x"], .ok []⟩, false⟩),
        (str "B", ⟨⟨[(str "n", ⟨.workflow_item, str "A.outputs.x"⟩)],
          [str "n"], [str "y"], .ok []⟩, true⟩)]⟩).map
        (fun r => (r.1, r.2.map Prod.fst)) =
      some ([], [str "B.inputs.n"])
    ∧ (execution_stack ⟨[(str "A", ⟨⟨[], [], [str "x"], .ok []⟩, false⟩),
        (str "B", ⟨⟨[(str "n", ⟨.workflow_item, str "A.outputs.x"⟩)],
          [str "n"], [str "y"], .ok []⟩, true⟩)]⟩).map
        (fun r => sdictGet r.2 (str "A")) = some none :=
  ⟨rfl, rfl⟩

/-- C4 amended: in a Workflow with a disabled operation `d` and an
enabled operation `e` whose sole workflow-item input references `d`'s
output, plan building (with any fuel) returns an empty stage list —
both operations are permanently excluded, `d` because it is disabled
and `e` because its reference never becomes resolvable — and the
returned diagnostics consist of exactly one entry: a non-empty message
for `e`'s blocked input that names the unresolved output uri as a
substring.  No diagnostic is recorded for the disabled operation: the
source constructs `{op_tag:'Operation is disabled'}` but drops it. -/
theorem C4_disabled_amended (d e n k : Str)
    (locD : List (Str × InputLocator)) (insD outsD insE outsE : List Str)
    (runD runE : Except String (List (Str × Node))) :
    (∀ fuel : Nat,
      stackLoop ⟨[(d, ⟨⟨locD, insD, outsD, runD⟩, false⟩),
          (e, ⟨⟨[(n, ⟨.workflow_item, d ++ '.' :: outputs_tag ++ '.' :: k⟩)],
            insE, outsE, runE⟩, true⟩)]⟩ (fuel + 1) [] [] [] =
        some ([],
          [(e ++ '.' :: inputs_tag ++ '.' :: n,
            str "Operation input " ++ n ++ str " (="
              ++ (d ++ '.' :: outputs_tag ++ '.' :: k)
              ++ str ") not found in valid Workflow input list: " ++ pyReprList [])]))
    ∧ execution_stack ⟨[(d, ⟨⟨locD, insD, outsD, runD⟩, false⟩),
          (e, ⟨⟨[(n, ⟨.workflow_item, d ++ '.' :: outputs_tag ++ '.' :: k⟩)],
            insE, outsE, runE⟩, true⟩)]⟩ =
        some ([],
          [(e ++ '.' :: inputs_tag ++ '.' :: n,
            str "Operation input " ++ n ++ str " (="
              ++ (d ++ '.' :: outputs_tag ++ '.' :: k)
              ++ str ") not found in valid Workflow input list: " ++ pyReprList [])])
    ∧ (str "Operation input " ++ n ++ str " (="
        ++ (d ++ '.' :: outputs_tag ++ '.' :: k)
        ++ str ") not found in valid Workflow input list: " ++ pyReprList []) ≠ []
    ∧ (d ++ '.' :: outputs_tag ++ '.' :: k) <:+:
        (str "Operation input " ++ n ++ str " (="
          ++ (d ++ '.' :: outputs_tag ++ '.' :: k)
          ++ str ") not found in valid Workflow input list: " ++ pyReprList []) := by
  have hmain : ∀ fuel : Nat,
      stackLoop ⟨[(d, ⟨⟨locD, insD, outsD, runD⟩, false⟩),
          (e, ⟨⟨[(n, ⟨.workflow_item, d ++ '.' :: outputs_tag ++ '.' :: k⟩)],
            insE, outsE, runE⟩, true⟩)]⟩ (fuel + 1) [] [] [] =
        some ([],
          [(e ++ '.' :: inputs_tag ++ '.' :: n,
            str "Operation input " ++ n ++ str " (="
              ++ (d ++ '.' :: outputs_tag ++ '.' :: k)
              ++ str ") not found in valid Workflow input list: " ++ pyReprList [])]) := by
    intro fuel
    simp [stackLoop, stack_size, roundStep, stack_contains, is_op_ready,
      sdictUpdate, sdictSet]
  refine ⟨hmain, hmain 2, by simp [str], ?_⟩
  refine ⟨str "Operation input " ++ n ++ str " (=",
    str ") not found in valid Workflow input list: " ++ pyReprList [], ?_⟩
  simp [List.append_assoc]

/-- Witness for the amended C4 with tags `A` (disabled) and `B`. -/
theorem C4_disabled_amended_witness :
    execution_stack ⟨[(str "A", ⟨⟨[], [], [str "x"], .ok []⟩, false⟩),
        (str "B", ⟨⟨[(str "n",
            ⟨.workflow_item, str "A" ++ '.' :: outputs_tag ++ '.' :: str "x"⟩)],
          [str "n"], [str "y"], .ok []⟩, true⟩)]⟩ =
      some ([],
        [(str "B" ++ '.' :: inputs_tag ++ '.' :: str "n",
          str "Operation input " ++ str "n" ++ str " (="
            ++ (str "A" ++ '.' :: outputs_tag ++ '.' :: str "x")
            ++ str ") not found in valid Workflow input list: " ++ pyReprList [])]) :=
  (C4_disabled_amended (str "A") (str "B") (str "n") (str "x")
    [] [] [str "x"] [str "n"] [str "y"] (.ok []) (.ok [])).2.1

/-! ## Claim C9 -/

theorem foldl_append_mem {α β : Type} (f : α → List β) (l : List α) (u : β) :
    ∀ init : List β, u ∈ l.foldl (fun acc p => acc ++ f p) init ↔
      u ∈ init ∨ ∃ p ∈ l, u ∈ f p := by
  induction l with
  | nil => simp
  | cons p rest ih =>
    intro init
    rw [List.foldl_cons, ih (init ++ f p)]
    simp only [List.mem_append, List.mem_cons]
    constructor
    · rintro ((h | h) | ⟨q, hq, hu⟩)
      · exact Or.inl h
      · exact Or.inr ⟨p, Or.inl rfl, h⟩
      · exact Or.inr ⟨q, Or.inr hq, hu⟩
    · rintro (h | ⟨q, (hq | hq), hu⟩)
      · exact Or.inl (Or.inl h)
      · subst hq
        exact Or.inl (Or.inr hu)
      · exact Or.inr ⟨q, hq, hu⟩

theorem mem_get_valid_wf_inputs (u t : Str) (op : Oper) :
    u ∈ get_valid_wf_inputs t op ↔
      (u = t ∨ u = t ++ '.' :: inputs_tag ∨ u = t ++ '.' :: outputs_tag
       ∨ (∃ kk ∈ op.outputs, u = t ++ '.' :: outputs_tag ++ '.' :: kk)
       ∨ (∃ kk ∈ op.inputs, u = t ++ '.' :: inputs_tag ++ '.' :: kk)) := by
  unfold get_valid_wf_inputs
  simp only [List.mem_cons, List.mem_append, List.mem_map, List.not_mem_nil, or_false]
  constructor <;> intro h <;> aesop

/-- C9: when a round of plan building schedules the newly-ready
operations `rdy`, the loop continues with the stage list extended by
their tags and with the valid-input list grown by exactly: each
scheduled operation's own uri, its `inputs` and `outputs` sub-uris,
and one uri per individual declared output and input — and nothing
else (the membership equivalence is exact). -/
theorem C9_valid_inputs_growth (wf : Wf) (fuel : Nat) (stk : List (List Str))
    (valid : List Str) (diag : List (Str × Str)) (rdy : List (Str × Oper))
    (diag' : List (Str × Str))
    (hr : roundStep wf stk valid diag = (rdy, diag'))
    (hne : rdy ≠ [])
    (hsz : ¬(stack_size stk = wf.ops.length)) :
    stackLoop wf (fuel + 1) stk valid diag =
      stackLoop wf fuel (stk ++ [rdy.map Prod.fst]) (valid ++ validGrowth rdy) diag'
    ∧ ∀ u : Str, u ∈ valid ++ validGrowth rdy ↔
        (u ∈ valid ∨ ∃ p ∈ rdy,
          u = p.1 ∨ u = p.1 ++ '.' :: inputs_tag ∨ u = p.1 ++ '.' :: outputs_tag
          ∨ (∃ kk ∈ p.2.outputs, u = p.1 ++ '.' :: outputs_tag ++ '.' :: kk)
          ∨ (∃ kk ∈ p.2.inputs, u = p.1 ++ '.' :: inputs_tag ++ '.' :: kk)) := by
  constructor
  · rw [stackLoop, if_neg hsz, hr]
    have hie : rdy.isEmpty = false := by
      cases rdy with
      | nil => exact absurd rfl hne
      | cons x xs => rfl
    dsimp only
    rw [hie]
    rfl
  · intro u
    rw [List.mem_append]
    unfold validGrowth
    rw [foldl_append_mem (fun p => get_valid_wf_inputs p.1 p.2) rdy u []]
    simp only [List.not_mem_nil, false_or, mem_get_valid_wf_inputs]

/-- Witness for C9: a one-operation workflow whose single enabled
operation is ready in the first round. -/
theorem C9_valid_inputs_growth_witness :
    roundStep ⟨[(str "A", ⟨⟨[], [str "i"], [str "x"], .ok []⟩, true⟩)]⟩ [] [] [] =
      ([(str "A", ⟨[], [str "i"], [str "x"], .ok []⟩)], [])
    ∧ stackLoop ⟨[(str "A", ⟨⟨[], [str "i"], [str "x"], .ok []⟩, true⟩)]⟩ 2 [] [] [] =
        stackLoop ⟨[(str "A", ⟨⟨[], [str "i"], [str "x"], .ok []⟩, true⟩)]⟩ 1
          ([] ++ [[str "A"]])
          ([] ++ validGrowth [(str "A", ⟨[], [str "i"], [str "x"], .ok []⟩)]) []
    ∧ ((str "A" ++ '.' :: outputs_tag ++ '.' :: str "x") ∈
        ([] ++ validGrowth [(str "A", ⟨[], [str "i"], [str "x"], .ok []⟩)]) ↔
        ((str "A" ++ '.' :: outputs_tag ++ '.' :: str "x") ∈ ([] : List Str) ∨
          ∃ p ∈ [(str "A", (⟨[], [str "i"], [str "x"], .ok []⟩ : Oper))],
            (str "A" ++ '.' :: outputs_tag ++ '.' :: str "x") = p.1
            ∨ (str "A" ++ '.' :: outputs_tag ++ '.' :: str "x") = p.1 ++ '.' :: inputs_tag
            ∨ (str "A" ++ '.' :: outputs_tag ++ '.' :: str "x") = p.1 ++ '.' :: outputs_tag
            ∨ (∃ kk ∈ p.2.outputs,
                (str "A" ++ '.' :: outputs_tag ++ '.' :: str "x") =
                  p.1 ++ '.' :: outputs_tag ++ '.' :: kk)
            ∨ (∃ kk ∈ p.2.inputs,
                (str "A" ++ '.' :: outputs_tag ++ '.' :: str "x") =
                  p.1 ++ '.' :: inputs_tag ++ '.' :: kk))) := by
  refine ⟨rfl, ?_, ?_⟩
  · exact (C9_valid_inputs_growth ⟨[(str "A", ⟨⟨[], [str "i"], [str "x"], .ok []⟩, true⟩)]⟩
      1 [] [] [] [(str "A", ⟨[], [str "i"], [str "x"], .ok []⟩)] [] rfl
      (by simp) (by simp [stack_size])).1
  · exact (C9_valid_inputs_growth ⟨[(str "A", ⟨⟨[], [str "i"], [str "x"], .ok []⟩, true⟩)]⟩
      1 [] [] [] [(str "A", ⟨[], [str "i"], [str "x"], .ok []⟩)] [] rfl
      (by simp) (by simp [stack_size])).2
      (str "A" ++ '.' :: outputs_tag ++ '.' :: str "x")

/-! ## Claim C6 -/

/-- C6 fails: when the saved major or minor version is behind the
running engine's, `load_from_wfl` enters the warning branch, whose
second statement `self.logmethod(msg)` references a variable `msg`
that is never assigned — the load raises a `NameError` instead of
warning and proceeding, so nothing is restored. -/
theorem C6_version_behind_raises (cur : Nat × Nat × Nat) (d : WflData)
    (h : (d.version.getD (0, 0, 0)).1 < cur.1
      ∨ (d.version.getD (0, 0, 0)).2.1 < cur.2.1) :
    load_from_wfl cur d = .error "NameError: name msg is not defined" := by
  unfold load_from_wfl
  exact if_pos h

/-- Witness for C6: a `.wfl` file saved under version `0.9.0` loaded
by engine version `1.0.0`. -/
theorem C6_version_behind_raises_witness :
    load_from_wfl (1, 0, 0) ⟨some (0, 9, 0)⟩ =
      .error "NameError: name msg is not defined" :=
  C6_version_behind_raises (1, 0, 0) ⟨some (0, 9, 0)⟩ (by decide)

/-! ## Claim C7 -/

theorem wdictGet_set_branch_self (n : Str) (v : Nat) :
    ∀ d : List (Str × Nat), d.any (fun p => p.1 = n) = true →
      wdictGet (d.map (fun p => if p.1 = n then (n, v) else p)) n = some v := by
  intro d
  induction d with
  | nil => intro h; exact absurd h (by simp)
  | cons q rest ih =>
    intro h
    by_cases hq : q.1 = n
    · rw [List.map_cons, if_pos hq]
      unfold wdictGet
      rw [if_pos rfl]
    · rw [List.map_cons, if_neg hq]
      unfold wdictGet
      rw [if_neg hq]
      refine ih ?_
      rw [List.any_cons] at h
      simpa [hq] using h

theorem wdictGet_set_branch_other (n : Str) (v : Nat) (k : Str) (hk : k ≠ n) :
    ∀ d : List (Str × Nat),
      wdictGet (d.map (fun p => if p.1 = n then (n, v) else p)) k = wdictGet d k := by
  intro d
  induction d with
  | nil => rfl
  | cons q rest ih =>
    by_cases hq : q.1 = n
    · rw [List.map_cons, if_pos hq]
      unfold wdictGet
      rw [if_neg (fun he => hk he.symm), if_neg (fun he => hk (hq ▸ he).symm)]
      exact ih
    · rw [List.map_cons, if_neg hq]
      unfold wdictGet
      by_cases hqk : q.1 = k
      · rw [if_pos hqk, if_pos hqk]
      · rw [if_neg hqk, if_neg hqk]
        exact ih

/-- C7 fails as stated; amended: when `wfname` already maps to a
workflow, `add_wf` stores the freshly built Workflow under that same
name — the colliding key now maps to the new instance, the workflows
dict does not grow, and every other name is untouched.  The previously
stored workflow is overwritten (as `add_wf`'s own docstring says), and
`auto_name` — which would have produced a unique name — is never
consulted. -/
theorem C7_add_wf_amended (m : WfM) (n : Str)
    (h : m.workflows.any (fun p => p.1 = n) = true) :
    wdictGet (add_wf m n).workflows n = some m.next_id
    ∧ (add_wf m n).workflows.length = m.workflows.length
    ∧ ∀ k, k ≠ n → wdictGet (add_wf m n).workflows k = wdictGet m.workflows k := by
  unfold add_wf wdictSet
  rw [h]
  refine ⟨wdictGet_set_branch_self n m.next_id m.workflows h, ?_, ?_⟩
  · exact List.length_map m.workflows _
  · intro k hk
    exact wdictGet_set_branch_other n m.next_id k hk m.workflows

/-- Witness for the amended C7: adding `wf` when `wf` already maps to
workflow `0` replaces it with the new workflow `1`. -/
theorem C7_add_wf_amended_witness :
    wdictGet (add_wf ⟨[(str "wf", 0)], 1⟩ (str "wf")).workflows (str "wf") = some 1
    ∧ (add_wf ⟨[(str "wf", 0)], 1⟩ (str "wf")).workflows.length =
        ([(str "wf", 0)] : List (Str × Nat)).length
    ∧ wdictGet (add_wf ⟨[(str "wf", 0)], 1⟩ (str "wf")).workflows (str "x") =
        wdictGet [(str "wf", 0)] (str "x") :=
  have H := C7_add_wf_amended ⟨[(str "wf", 0)], 1⟩ (str "wf") (by decide)
  ⟨H.1, H.2.1, H.2.2 (str "x") (by decide)⟩

/-- C7's original text is refuted concretely: after two `add_wf` calls
under the same name, the dict holds only the second workflow (`1`) —
the first (`0`) is gone, nothing is stored under the auto-generated
name `wf_1`, even though `auto_name` (never called by `add_wf`) would
have produced exactly that name. -/
theorem C7_counterexample :
    (add_wf (add_wf ⟨[], 0⟩ (str "wf")) (str "wf")).workflows = [(str "wf", 1)]
    ∧ wdictGet (add_wf (add_wf ⟨[], 0⟩ (str "wf")) (str "wf")).workflows
        (str "wf" ++ '_' :: Nat.toDigits 10 1) = none
    ∧ auto_name (add_wf ⟨[], 0⟩ (str "wf")) (str "wf") =
        some (str "wf" ++ '_' :: Nat.toDigits 10 1) :=
  ⟨rfl, rfl, rfl⟩

/-! ## Claim C8 -/

/-- C8 fails: `Workflow.execute` never reaches any stage — its first
statement after building the plan evaluates `os.linesep`, and
`Workflow.py` does not import `os`, so a `NameError` is raised before
any `run()` is called, even for a workflow whose plan builds fine and
whose single operation's `run()` would itself raise; and the
`try/except` that would have attached the failing operation's tag to a
run error is commented out in the source. -/
theorem C8_execute_name_error :
    execute ⟨[(str "A", ⟨⟨[], [], [str "x"], .error "boom"⟩, true⟩)]⟩ =
      .error "NameError: name os is not defined"
    ∧ execution_stack ⟨[(str "A", ⟨⟨[], [], [str "x"], .error "boom"⟩, true⟩)]⟩ =
      some ([[str "A"]], []) :=
  ⟨rfl, rfl⟩

end Paws
